import Mathlib

/-!
# Range sync coordinator: shallow embedding

Shallow embedding of `beacon_node/network/src/sync/range_sync/range.rs`
(the `RangeSync` coordinator).  The coordinator's collaborators that are not
part of the sources (`chain.rs`, `chain_collection.rs`, `sync_type.rs`, the
LRU time cache) are modelled from the specification's description of them;
each such definition carries a doc comment starting with
`Modelled from the spec:`.

Machine integers (slots, epochs, peer ids, roots) are modelled as `Nat`:
none of the verified operations can overflow a `u64` on the inputs the
claims quantify over, and the source performs no wrapping arithmetic here.
Network side effects are reified as an explicit `Effect` trace.
-/

/-! ## Basic identifiers -/


/-- Modelled from the spec: `ChainId` (defined in `chain.rs`, not under
`src/`) is "a stable identifier derived deterministically from
`{start_epoch, target_head_root, target_head_slot}`"; we take the triple
itself, which is deterministic and coalesces identical targets. -/
abbrev ChainId := Nat × Nat × Nat

/-- A peer's self-reported view, mirroring `lighthouse_network::SyncInfo`
as used in `range.rs` (fields in the order of the struct literal at
`range.rs:354`). -/
structure SyncInfo where
  head_slot : Nat
  head_root : Nat
  finalized_epoch : Nat
  finalized_root : Nat
deriving DecidableEq, Repr

/-- For how long we store failed finalized chains to prevent retries
(`range.rs:61`). -/
def FAILED_CHAINS_EXPIRY_SECONDS : Nat := 30

/-- Modelled from the spec: `SLOT_IMPORT_TOLERANCE` lives in
`sync/manager.rs`, not under `src/`; the spec's glossary says
"a small slot count (typically 32)". -/
def SLOT_IMPORT_TOLERANCE : Nat := 32

/-! ## Sync types, chain states, terminal outcomes -/

inductive RangeSyncType
  | Finalized
  | Head
deriving DecidableEq, Repr

/-- Modelled from the spec: chain state `∈ {Stopped, Syncing}` (§3,
`chain.rs` is not under `src/`). -/
inductive ChainSyncState
  | Stopped
  | Syncing
deriving DecidableEq, Repr

/-- Modelled from the spec: terminal chain outcomes
`reason ∈ {Completed, ChainFailed{blacklist: bool}, EmptyPeerPool}` (§4.2;
`chain.rs` is not under `src/`).  `range.rs:338` pattern-matches
`RemoveChain::ChainFailed { blacklist, .. }`. -/
inductive RemoveChain
  | Completed
  | ChainFailed (blacklist : Bool)
  | EmptyPeerPool
deriving DecidableEq, Repr

inductive GoodbyeReason
  | IrrelevantNetwork
  | Fault
deriving DecidableEq, Repr

/-- Network-visible actions of the coordinator, reified as a trace.
`goodbye_peer` and `status_peers` are the two network-context calls made by
`range.rs`; `chains_updated` marks each invocation of
`ChainCollection::update` together with the local sync info passed to it. -/
inductive Effect
  | goodbye_peer (peer : Nat) (reason : GoodbyeReason)
  | status_peers (peers : Finset Nat)
  | chains_updated (local_info : SyncInfo)
deriving DecidableEq

/-! ## Peer classification -/

/-- Modelled from the spec: `RangeSyncType::new` (in `sync_type.rs`, not
under `src/`), §4.4.1: Finalized when
`remote.finalized_epoch > local.finalized_epoch` and
`remote.finalized_epoch ≤ local.head_slot.epoch + SLOT_IMPORT_TOLERANCE`;
else Head when `remote.head_slot > local.head_slot + SLOT_IMPORT_TOLERANCE`;
else not a range-sync candidate (drop).  `spe` is `slots_per_epoch`. -/
def RangeSyncType.new (spe : Nat) (local_info remote_info : SyncInfo) :
    Option RangeSyncType :=
  if local_info.finalized_epoch < remote_info.finalized_epoch ∧
      remote_info.finalized_epoch ≤ local_info.head_slot / spe + SLOT_IMPORT_TOLERANCE then
    some .Finalized
  else if local_info.head_slot + SLOT_IMPORT_TOLERANCE < remote_info.head_slot then
    some .Head
  else
    none

/-! ## Syncing chains -/

/-- Modelled from the spec: the attributes of `SyncingChain` (§3) that the
coordinator's behaviour depends on (`chain.rs` is not under `src/`).  The
batch pipeline internal to a chain is out of scope of the claims. -/
structure SyncingChain where
  start_epoch : Nat
  target_head_root : Nat
  target_head_slot : Nat
  peers : Finset Nat
  state : ChainSyncState
deriving DecidableEq

def SyncingChain.id (c : SyncingChain) : ChainId :=
  (c.start_epoch, c.target_head_root, c.target_head_slot)

/-- Strict lexicographic order on chain identifiers (used to keep chain
lists in a canonical order and to break election ties by smallest id). -/
def idLtb (a b : ChainId) : Bool :=
  if a.1 < b.1 then true
  else if b.1 < a.1 then false
  else if a.2.1 < b.2.1 then true
  else if b.2.1 < a.2.1 then false
  else decide (a.2.2 < b.2.2)

/-- Modelled from the spec: `remove_peer` on one chain (§4.2, `chain.rs`
not under `src/`): "Removes from pool; ...; if pool becomes empty, return
`EmptyPeerPool`." -/
def SyncingChain.remove_peer (p : Nat) (c : SyncingChain) :
    SyncingChain × Option RemoveChain :=
  let c2 : SyncingChain := { c with peers := c.peers.erase p }
  (c2, if c2.peers = ∅ then some .EmptyPeerPool else none)

/-! ## Chain lists (kept sorted by `idLtb` on ids) -/

/-- Modelled from the spec: the list-level content of
`add_peer_or_create_chain` (§4.3): "If a chain with the matching `ChainId`
exists, add the peer to it; else create a new chain."  New chains start
`Stopped` (§4.2: downloads start when the collection updates). -/
def add_peer_to_chains (start_epoch : Nat) (root : Nat) (slot : Nat)
    (p : Nat) : List SyncingChain → List SyncingChain
  | [] => [⟨start_epoch, root, slot, {p}, .Stopped⟩]
  | c :: t =>
    if c.id = (start_epoch, root, slot) then
      { c with peers := insert p c.peers } :: t
    else if idLtb (start_epoch, root, slot) c.id then
      ⟨start_epoch, root, slot, {p}, .Stopped⟩ :: c :: t
    else
      c :: add_peer_to_chains start_epoch root slot p t

/-! ## The chain collection -/

/-- Modelled from the spec: `ChainCollection` (§3): "Two ordered maps
`finalized_chains` and `head_chains`, each indexed by `ChainId`"
(`chain_collection.rs` is not under `src/`). -/
structure ChainCollection where
  finalized_chains : List SyncingChain
  head_chains : List SyncingChain
deriving DecidableEq

/-- Modelled from the spec: `is_finalizing_sync` (§4.3): "True when an
elected finalized chain exists"; the elected chain is the one in `Syncing`
state. -/
def ChainCollection.is_finalizing_sync (cc : ChainCollection) : Bool :=
  cc.finalized_chains.any (fun c => decide (c.state = ChainSyncState.Syncing))

def ChainCollection.add_peer_or_create_chain (start_epoch : Nat)
    (root : Nat) (slot : Nat) (p : Nat) (sync_type : RangeSyncType)
    (cc : ChainCollection) : ChainCollection :=
  match sync_type with
  | .Finalized =>
    { cc with finalized_chains := add_peer_to_chains start_epoch root slot p cc.finalized_chains }
  | .Head =>
    { cc with head_chains := add_peer_to_chains start_epoch root slot p cc.head_chains }

/-- Modelled from the spec: election of the syncing finalized chain (§4.3):
the chain with the largest peer pool, ties broken by smallest `ChainId`.
Folding from the left of an id-sorted list keeps the first (smallest-id)
maximum. -/
def elect_from (c : SyncingChain) (t : List SyncingChain) : ChainId :=
  (t.foldl (fun a b => if a.peers.card < b.peers.card then b else a) c).id

/-- Modelled from the spec: the chains `update` keeps (§4.3): "any chain
whose target is now at or behind local finalization is removed", and the
collection "garbage-collects chains whose peer pools have drained" (§2). -/
def chain_keep (spe : Nat) (local_info : SyncInfo) (c : SyncingChain) : Bool :=
  decide (local_info.finalized_epoch * spe < c.target_head_slot) &&
    decide (c.peers ≠ ∅)

/-! ## The awaiting-head-peers map (assoc list sorted by peer id) -/

abbrev AwaitingMap := List (Nat × SyncInfo)

def aw_lookup (p : Nat) : AwaitingMap → Option SyncInfo
  | [] => none
  | e :: t => if e.1 = p then some e.2 else aw_lookup p t

def aw_erase (p : Nat) : AwaitingMap → AwaitingMap
  | [] => []
  | e :: t => if e.1 = p then t else e :: aw_erase p t

/-- `HashMap::insert` semantics: replace any previous binding of the key
(most-recent info wins), keeping the canonical key order. -/
def aw_insert (p : Nat) (info : SyncInfo) : AwaitingMap → AwaitingMap
  | [] => [(p, info)]
  | e :: t =>
    if p < e.1 then (p, info) :: e :: t
    else if p = e.1 then (p, info) :: t
    else e :: aw_insert p info t

/-- Modelled from the spec: re-offering one parked head peer (§4.3 update
drains `awaiting_head_peers` when no finalized chain remains; re-offered
peers follow the Head construction of §4.4.1:
`start_epoch = min(local.head_slot, remote.finalized_slot).epoch`,
`target_root = remote.head_root`, `target_slot = remote.head_slot`). -/
def drain_entry (spe : Nat) (local_info : SyncInfo) (acc : List SyncingChain)
    (e : Nat × SyncInfo) : List SyncingChain :=
  add_peer_to_chains (min local_info.head_slot (e.2.finalized_epoch * spe) / spe)
    e.2.head_root e.2.head_slot e.1 acc

/-- Modelled from the spec: `ChainCollection::update` (§4.3,
`chain_collection.rs` not under `src/`): purge chains whose target is at or
behind local finalization and chains with drained pools; elect the
finalized chain with the largest pool (ties to the smallest id) as
`Syncing`, stop the others; all head chains start/continue (`Syncing`);
when no finalized chain remains, drain `awaiting_head_peers` re-offering
each parked peer as a head peer (a re-offered chain that would be
immediately purged is dropped). -/
def ChainCollection.update (spe : Nat) (local_info : SyncInfo)
    (cc : ChainCollection) (awaiting : AwaitingMap) :
    ChainCollection × AwaitingMap :=
  let fs := cc.finalized_chains.filter (chain_keep spe local_info)
  let hs := cc.head_chains.filter (chain_keep spe local_info)
  match fs with
  | [] =>
    let drained := awaiting.foldl (drain_entry spe local_info) hs
    (⟨[], (drained.filter (chain_keep spe local_info)).map
        (fun c => { c with state := .Syncing })⟩,
      [])
  | c :: t =>
    let e := elect_from c t
    (⟨(c :: t).map (fun d =>
          { d with state := if d.id = e then ChainSyncState.Syncing else .Stopped }),
        hs.map (fun d => { d with state := ChainSyncState.Syncing })⟩,
      awaiting)

/-! ## The failed-chain cache -/

/-- Modelled from the spec: `LRUTimeCache` membership (the `lru_cache`
crate is not under `src/`): "Keyed by `target_head_root`, each entry
expires `FAILED_CHAINS_EXPIRY_SECONDS` (30 s) after insertion" (§3), with
insertion-time-based (not access-time-based) expiry (§9).  The cache is a
list of `(root, insertion_time)` pairs; a root is contained at time `now`
iff some entry for it was inserted less than 30 seconds ago. -/
def failed_chains_contains (cache : List (Nat × Nat)) (now : Nat)
    (root : Nat) : Bool :=
  cache.any (fun e => decide (e.1 = root ∧ now < e.2 + FAILED_CHAINS_EXPIRY_SECONDS))

/-! ## The coordinator -/

/-- State of `RangeSync` (`range.rs:66`): the beacon chain is reduced to
the local status it reports (`status_message()`, used at `range.rs:353`);
`awaiting_head_peers`, the chain collection and the failed-chain cache are
as in the struct. -/
structure RangeSync where
  beacon_status : SyncInfo
  awaiting_head_peers : AwaitingMap
  chains : ChainCollection
  failed_chains : List (Nat × Nat)
deriving DecidableEq

/-- `RangeSync::on_chain_removed` (`range.rs:324`): blacklist the target
root when the reason is `ChainFailed{blacklist: true}` and the sync type is
Finalized; re-STATUS the removed chain's peers; update the collection with
fresh local info from the beacon chain. -/
def RangeSync.on_chain_removed (spe now : Nat) (rs : RangeSync)
    (chain : SyncingChain) (sync_type : RangeSyncType)
    (remove_reason : RemoveChain) : RangeSync × List Effect :=
  let rs1 :=
    match remove_reason with
    | .ChainFailed blacklist =>
      if RangeSyncType.Finalized = sync_type ∧ blacklist = true then
        { rs with failed_chains := (chain.target_head_root, now) :: rs.failed_chains }
      else rs
    | _ => rs
  let local_info := rs1.beacon_status
  let u := ChainCollection.update spe local_info rs1.chains rs1.awaiting_head_peers
  ({ rs1 with chains := u.1, awaiting_head_peers := u.2 },
    [Effect.status_peers chain.peers, Effect.chains_updated local_info])

/-- `call_all(|chain| chain.remove_peer(..))` on one list: apply the
removal to every chain, splitting off the chains that report a terminal
outcome (always `EmptyPeerPool` for a peer removal). -/
def call_all_remove (p : Nat) :
    List SyncingChain → List SyncingChain × List SyncingChain
  | [] => ([], [])
  | c :: t =>
    let r := call_all_remove p t
    let cr := SyncingChain.remove_peer p c
    match cr.2 with
    | none => (cr.1 :: r.1, r.2)
    | some _ => (r.1, cr.1 :: r.2)

/-- `RangeSync::remove_peer` (`range.rs:276`): fan out `remove_peer` to
every chain, then run `on_chain_removed` for each chain that emptied. -/
def RangeSync.remove_peer (spe now : Nat) (rs : RangeSync) (p : Nat) :
    RangeSync × List Effect :=
  let f := call_all_remove p rs.chains.finalized_chains
  let h := call_all_remove p rs.chains.head_chains
  let rs1 := { rs with chains := ⟨f.1, h.1⟩ }
  (f.2.map (fun c => (c, RangeSyncType.Finalized)) ++
      h.2.map (fun c => (c, RangeSyncType.Head))).foldl
    (fun acc x =>
      let o := RangeSync.on_chain_removed spe now acc.1 x.1 x.2 .EmptyPeerPool
      (o.1, acc.2 ++ o.2))
    (rs1, [])

/-- `RangeSync::add_peer` (`range.rs:106`): classify the peer; for a
Finalized peer, goodbye if its finalized root is a recently failed chain,
else drop any parked entry, add it to the finalized chain targeting
`remote.finalized_slot + 2·slots_per_epoch + 1` and update; for a Head peer,
park it while a finalized sync is in progress, else remove it from every
chain and from the parked map, add it to its head chain and update.
`now` is the wall-clock second of the call (for the failed-chain cache). -/
def RangeSync.add_peer (spe now : Nat) (rs : RangeSync)
    (local_info : SyncInfo) (peer_id : Nat) (remote_info : SyncInfo) :
    RangeSync × List Effect :=
  let remote_finalized_slot := remote_info.finalized_epoch * spe
  match RangeSyncType.new spe local_info remote_info with
  | some .Finalized =>
    if failed_chains_contains rs.failed_chains now remote_info.finalized_root then
      (rs, [Effect.goodbye_peer peer_id .IrrelevantNetwork])
    else
      let rs1 := { rs with awaiting_head_peers := aw_erase peer_id rs.awaiting_head_peers }
      let target_head_slot := remote_finalized_slot + 2 * spe + 1
      let cc := ChainCollection.add_peer_or_create_chain local_info.finalized_epoch
        remote_info.finalized_root target_head_slot peer_id .Finalized rs1.chains
      let u := ChainCollection.update spe local_info cc rs1.awaiting_head_peers
      ({ rs1 with chains := u.1, awaiting_head_peers := u.2 },
        [Effect.chains_updated local_info])
  | some .Head =>
    if rs.chains.is_finalizing_sync then
      ({ rs with awaiting_head_peers := aw_insert peer_id remote_info rs.awaiting_head_peers },
        [])
    else
      let r := RangeSync.remove_peer spe now rs peer_id
      let rs2 := { r.1 with awaiting_head_peers := aw_erase peer_id r.1.awaiting_head_peers }
      let start_epoch := min local_info.head_slot remote_finalized_slot / spe
      let cc := ChainCollection.add_peer_or_create_chain start_epoch
        remote_info.head_root remote_info.head_slot peer_id .Head rs2.chains
      let u := ChainCollection.update spe local_info cc rs2.awaiting_head_peers
      ({ rs2 with chains := u.1, awaiting_head_peers := u.2 },
        r.2 ++ [Effect.chains_updated local_info])
  | none => (rs, [])

/-- One step of `call_by_id` on a single chain list: find the chain with
id `cid`, apply `f`, and either keep the updated chain (no terminal
outcome) or extract it together with its removal reason.  `none` when no
chain has that id. -/
def apply_to_chain (cid : ChainId)
    (f : SyncingChain → SyncingChain × Option RemoveChain) :
    List SyncingChain →
      Option (List SyncingChain × Option (SyncingChain × RemoveChain))
  | [] => none
  | c :: t =>
    if c.id = cid then
      let r := f c
      match r.2 with
      | none => some (r.1 :: t, none)
      | some reason => some (t, some (r.1, reason))
    else
      match apply_to_chain cid f t with
      | none => none
      | some o => some (c :: o.1, o.2)

/-- `ChainCollection::call_by_id` routed through the coordinator
(`range.rs:212`, `range.rs:240`, `range.rs:304`): dispatch `f` to the named
chain (finalized chains searched first), run `on_chain_removed` on a
terminal outcome; an unknown `chain_id` only produces a trace - the state
is returned unchanged with no effects.  The chain-level handler `f` stands
for the operations of `chain.rs` (not under `src/`). -/
def RangeSync.call_by_id (spe now : Nat) (rs : RangeSync) (chain_id : ChainId)
    (f : SyncingChain → SyncingChain × Option RemoveChain) :
    RangeSync × List Effect :=
  match apply_to_chain chain_id f rs.chains.finalized_chains with
  | some o =>
    let rs1 := { rs with chains := { rs.chains with finalized_chains := o.1 } }
    match o.2 with
    | none => (rs1, [])
    | some cr => RangeSync.on_chain_removed spe now rs1 cr.1 .Finalized cr.2
  | none =>
    match apply_to_chain chain_id f rs.chains.head_chains with
    | some o =>
      let rs1 := { rs with chains := { rs.chains with head_chains := o.1 } }
      match o.2 with
      | none => (rs1, [])
      | some cr => RangeSync.on_chain_removed spe now rs1 cr.1 .Head cr.2
    | none => (rs, [])

/-- `RangeSync::blocks_by_range_response` (`range.rs:202`): the chain-level
response handler (from `chain.rs`, not under `src/`) is abstracted as `f`. -/
def RangeSync.blocks_by_range_response (spe now : Nat) (rs : RangeSync)
    (chain_id : ChainId)
    (f : SyncingChain → SyncingChain × Option RemoveChain) :
    RangeSync × List Effect :=
  RangeSync.call_by_id spe now rs chain_id f

/-- `RangeSync::handle_block_process_result` (`range.rs:232`): the
chain-level result handler is abstracted as `f`. -/
def RangeSync.handle_block_process_result (spe now : Nat) (rs : RangeSync)
    (chain_id : ChainId)
    (f : SyncingChain → SyncingChain × Option RemoveChain) :
    RangeSync × List Effect :=
  RangeSync.call_by_id spe now rs chain_id f

/-- `RangeSync::inject_error` (`range.rs:295`): the chain-level error
handler is abstracted as `f`. -/
def RangeSync.inject_error (spe now : Nat) (rs : RangeSync)
    (chain_id : ChainId)
    (f : SyncingChain → SyncingChain × Option RemoveChain) :
    RangeSync × List Effect :=
  RangeSync.call_by_id spe now rs chain_id f

/-! ## Well-formedness -/

/-- A chain list in canonical strictly-id-sorted order (so ids are unique). -/
def ChainsSorted (l : List SyncingChain) : Prop :=
  List.Pairwise (fun a b => idLtb a.id b.id = true) l

/-- Well-formed coordinator states: chain lists canonically sorted and the
parked-peer map sorted by key; whenever finalized chains exist, one of them
is the elected (syncing) chain — the shape every `update` re-establishes. -/
def RangeSync.WF (rs : RangeSync) : Prop :=
  ChainsSorted rs.chains.finalized_chains ∧
  ChainsSorted rs.chains.head_chains ∧
  List.Pairwise (fun a b => a.1 < b.1) rs.awaiting_head_peers ∧
  (rs.chains.finalized_chains ≠ [] → rs.chains.is_finalizing_sync = true)

/-! ## Helper lemmas -/

theorem aw_lookup_none_of_forall {l : AwaitingMap} {p : Nat}
    (h : ∀ e ∈ l, e.1 ≠ p) : aw_lookup p l = none := by
  induction l with
  | nil => rfl
  | cons u t ih =>
    simp only [aw_lookup, if_neg (h u (List.mem_cons_self u t))]
    exact ih fun e he => h e (List.mem_cons_of_mem u he)

theorem aw_erase_mem {p : Nat} {e : Nat × SyncInfo} :
    ∀ {l : AwaitingMap}, e ∈ aw_erase p l → e ∈ l := by
  intro l
  induction l with
  | nil => intro h; simp [aw_erase] at h
  | cons u t ih =>
    intro h
    by_cases hu : u.1 = p
    · simp only [aw_erase, if_pos hu] at h
      exact List.mem_cons_of_mem u h
    · simp only [aw_erase, if_neg hu] at h
      rcases List.mem_cons.mp h with h1 | h2
      · exact h1 ▸ List.mem_cons_self u t
      · exact List.mem_cons_of_mem u (ih h2)

theorem aw_erase_key_ne {p : Nat} {e : Nat × SyncInfo} :
    ∀ {l : AwaitingMap}, List.Pairwise (fun a b => a.1 < b.1) l →
      e ∈ aw_erase p l → e ∈ l ∧ e.1 ≠ p := by
  intro l
  induction l with
  | nil => intro _ h; simp [aw_erase] at h
  | cons u t ih =>
    intro hs h
    have hu := List.pairwise_cons.mp hs
    by_cases hk : u.1 = p
    · simp only [aw_erase, if_pos hk] at h
      refine ⟨List.mem_cons_of_mem u h, ?_⟩
      have h2 : u.1 < e.1 := hu.1 e h
      intro hep
      rw [hep, hk] at h2
      exact lt_irrefl p h2
    · simp only [aw_erase, if_neg hk] at h
      rcases List.mem_cons.mp h with h1 | h2
      · subst h1
        exact ⟨List.mem_cons_self e t, hk⟩
      · rcases ih hu.2 h2 with ⟨hm, hne⟩
        exact ⟨List.mem_cons_of_mem u hm, hne⟩

theorem aw_lookup_erase_self {l : AwaitingMap} (p : Nat)
    (hs : List.Pairwise (fun a b => a.1 < b.1) l) :
    aw_lookup p (aw_erase p l) = none :=
  aw_lookup_none_of_forall fun _ he => (aw_erase_key_ne hs he).2

theorem apply_to_chain_none {cid : ChainId}
    {f : SyncingChain → SyncingChain × Option RemoveChain}
    {l : List SyncingChain} (h : ∀ c ∈ l, c.id ≠ cid) :
    apply_to_chain cid f l = none := by
  induction l with
  | nil => rfl
  | cons c t ih =>
    simp only [apply_to_chain, if_neg (h c (List.mem_cons_self c t))]
    rw [ih (fun d hd => h d (List.mem_cons_of_mem c hd))]

theorem rangeSyncType_finalized_lt {spe : Nat} {a b : SyncInfo}
    (h : RangeSyncType.new spe a b = some RangeSyncType.Finalized) :
    a.finalized_epoch < b.finalized_epoch := by
  unfold RangeSyncType.new at h
  split_ifs at h with h1 h2
  · exact h1.1
  all_goals simp at h

theorem on_chain_removed_effects (spe now : Nat) (rs : RangeSync)
    (chain : SyncingChain) (sync_type : RangeSyncType)
    (remove_reason : RemoveChain) :
    (RangeSync.on_chain_removed spe now rs chain sync_type remove_reason).2 =
      [Effect.status_peers chain.peers, Effect.chains_updated rs.beacon_status] := by
  unfold RangeSync.on_chain_removed
  rcases remove_reason with _ | b | _
  · rfl
  · by_cases hb : RangeSyncType.Finalized = sync_type ∧ b = true
    · simp [hb]
    · simp [hb]
  · rfl

/-! ## C1 -/

/-- C1: in `RangeSync::add_peer`, a peer classified Finalized whose
finalized root is in the failed-chain cache is disconnected with reason
`IrrelevantNetwork` and the handler returns at once: the state (chains,
parked peers, cache) is completely unchanged and the goodbye is the only
effect — in particular no chain is created or extended and the chain
collection is not updated. -/
theorem add_peer_failed_chain_goodbye (spe now : Nat) (rs : RangeSync)
    (local_info : SyncInfo) (peer_id : Nat) (remote_info : SyncInfo)
    (hty : RangeSyncType.new spe local_info remote_info = some RangeSyncType.Finalized)
    (hfail : failed_chains_contains rs.failed_chains now remote_info.finalized_root = true) :
    RangeSync.add_peer spe now rs local_info peer_id remote_info =
      (rs, [Effect.goodbye_peer peer_id GoodbyeReason.IrrelevantNetwork]) := by
  unfold RangeSync.add_peer
  rw [hty]
  simp [hfail]

theorem add_peer_failed_chain_goodbye_witness :
    RangeSync.add_peer 8 5 ⟨⟨0, 0, 0, 0⟩, [], ⟨[], []⟩, [(101, 0)]⟩
        ⟨0, 0, 0, 0⟩ 7 ⟨16, 201, 2, 101⟩ =
      (⟨⟨0, 0, 0, 0⟩, [], ⟨[], []⟩, [(101, 0)]⟩,
        [Effect.goodbye_peer 7 GoodbyeReason.IrrelevantNetwork]) :=
  add_peer_failed_chain_goodbye 8 5 _ _ 7 _ (by decide) (by decide)

/-! ## C5 -/

/-- C5: every chain removal handled by `on_chain_removed` produces exactly
one `status_peers` network call, whose peer set is exactly the removed
chain's pool, followed by exactly one `ChainCollection::update` invocation
carrying the fresh local sync info read from the beacon chain. -/
theorem on_chain_removed_status_and_update (spe now : Nat) (rs : RangeSync)
    (chain : SyncingChain) (sync_type : RangeSyncType)
    (remove_reason : RemoveChain) :
    (RangeSync.on_chain_removed spe now rs chain sync_type remove_reason).2 =
      [Effect.status_peers chain.peers, Effect.chains_updated rs.beacon_status] ∧
    (RangeSync.on_chain_removed spe now rs chain sync_type remove_reason).2.countP
        (fun e => match e with | Effect.status_peers _ => true | _ => false) = 1 ∧
    (RangeSync.on_chain_removed spe now rs chain sync_type remove_reason).2.countP
        (fun e => match e with | Effect.chains_updated _ => true | _ => false) = 1 := by
  refine ⟨on_chain_removed_effects spe now rs chain sync_type remove_reason, ?_, ?_⟩ <;>
    rw [on_chain_removed_effects spe now rs chain sync_type remove_reason] <;> rfl

/-! ## C6 -/

/-- C6: in `RangeSync::add_peer`, a peer classified Head while a finalized
sync is in progress is parked in `awaiting_head_peers` with its remote info
and the handler returns: the chain collection is untouched (no chain
created or extended, no peer removed from any chain) and no network effect
is produced. -/
theorem add_peer_head_parked_while_finalizing (spe now : Nat) (rs : RangeSync)
    (local_info : SyncInfo) (peer_id : Nat) (remote_info : SyncInfo)
    (hty : RangeSyncType.new spe local_info remote_info = some RangeSyncType.Head)
    (hfin : rs.chains.is_finalizing_sync = true) :
    RangeSync.add_peer spe now rs local_info peer_id remote_info =
      ({ rs with awaiting_head_peers := aw_insert peer_id remote_info rs.awaiting_head_peers },
        []) ∧
    (RangeSync.add_peer spe now rs local_info peer_id remote_info).1.chains = rs.chains := by
  unfold RangeSync.add_peer
  rw [hty]
  simp [hfin]

theorem add_peer_head_parked_while_finalizing_witness :
    RangeSync.add_peer 8 0
        ⟨⟨0, 0, 0, 0⟩, [], ⟨[⟨0, 101, 33, {7}, ChainSyncState.Syncing⟩], []⟩, []⟩
        ⟨0, 0, 0, 0⟩ 9 ⟨100, 301, 0, 0⟩ =
      (⟨⟨0, 0, 0, 0⟩, [(9, ⟨100, 301, 0, 0⟩)],
          ⟨[⟨0, 101, 33, {7}, ChainSyncState.Syncing⟩], []⟩, []⟩, []) :=
  (add_peer_head_parked_while_finalizing 8 0 _ _ 9 _ (by decide) (by decide)).1

/-! ## C7 -/

/-- C7: an event delivered with a `chain_id` not present in the chain
collection — a blocks-by-range response, a block-process result or an
injected RPC error — leaves the coordinator's state (chains, failed-chain
cache, parked peers) unchanged and produces no effect, for any chain-level
handler; the event is only traced. -/
theorem unknown_chain_id_events_noop (spe now : Nat) (rs : RangeSync)
    (chain_id : ChainId)
    (f g k : SyncingChain → SyncingChain × Option RemoveChain)
    (habs : ∀ c ∈ rs.chains.finalized_chains ++ rs.chains.head_chains,
      c.id ≠ chain_id) :
    RangeSync.blocks_by_range_response spe now rs chain_id f = (rs, []) ∧
    RangeSync.handle_block_process_result spe now rs chain_id g = (rs, []) ∧
    RangeSync.inject_error spe now rs chain_id k = (rs, []) := by
  have hf : ∀ c ∈ rs.chains.finalized_chains, c.id ≠ chain_id :=
    fun c hc => habs c (List.mem_append_left _ hc)
  have hh : ∀ c ∈ rs.chains.head_chains, c.id ≠ chain_id :=
    fun c hc => habs c (List.mem_append_right _ hc)
  refine ⟨?_, ?_, ?_⟩ <;>
    simp only [RangeSync.blocks_by_range_response,
      RangeSync.handle_block_process_result, RangeSync.inject_error,
      RangeSync.call_by_id, apply_to_chain_none hf, apply_to_chain_none hh]

theorem unknown_chain_id_events_noop_witness :
    RangeSync.blocks_by_range_response 8 0
        ⟨⟨0, 0, 0, 0⟩, [], ⟨[⟨0, 101, 33, {7}, ChainSyncState.Syncing⟩], []⟩, [(9, 3)]⟩
        (1, 2, 3) (fun c => (c, some (RemoveChain.ChainFailed true))) =
      (⟨⟨0, 0, 0, 0⟩, [], ⟨[⟨0, 101, 33, {7}, ChainSyncState.Syncing⟩], []⟩, [(9, 3)]⟩, []) ∧
    RangeSync.inject_error 8 0
        ⟨⟨0, 0, 0, 0⟩, [], ⟨[⟨0, 101, 33, {7}, ChainSyncState.Syncing⟩], []⟩, [(9, 3)]⟩
        (1, 2, 3) (fun c => (c, some RemoveChain.EmptyPeerPool)) =
      (⟨⟨0, 0, 0, 0⟩, [], ⟨[⟨0, 101, 33, {7}, ChainSyncState.Syncing⟩], []⟩, [(9, 3)]⟩, []) := by
  have h := unknown_chain_id_events_noop 8 0
    ⟨⟨0, 0, 0, 0⟩, [], ⟨[⟨0, 101, 33, {7}, ChainSyncState.Syncing⟩], []⟩, [(9, 3)]⟩
    (1, 2, 3) (fun c => (c, some (RemoveChain.ChainFailed true)))
    (fun c => (c, none)) (fun c => (c, some RemoveChain.EmptyPeerPool)) (by decide)
  exact ⟨h.1, h.2.2⟩

/-! ## Order facts for chain ids -/

theorem idLtb_iff (a b : ChainId) :
    idLtb a b = true ↔
      a.1 < b.1 ∨ (a.1 = b.1 ∧ (a.2.1 < b.2.1 ∨ (a.2.1 = b.2.1 ∧ a.2.2 < b.2.2))) := by
  rcases a with ⟨a1, a2, a3⟩
  rcases b with ⟨b1, b2, b3⟩
  unfold idLtb
  dsimp only
  split_ifs with h1 h2 h3 h4 <;> simp <;> omega

theorem idLtb_irrefl (a : ChainId) : idLtb a a = false := by
  rcases a with ⟨a1, a2, a3⟩
  rw [← Bool.not_eq_true, idLtb_iff]
  dsimp only
  omega

theorem idLtb_trans {a b c : ChainId} (h1 : idLtb a b = true)
    (h2 : idLtb b c = true) : idLtb a c = true := by
  rcases a with ⟨a1, a2, a3⟩
  rcases b with ⟨b1, b2, b3⟩
  rcases c with ⟨c1, c2, c3⟩
  rw [idLtb_iff] at h1 h2 ⊢
  dsimp only at h1 h2 ⊢
  omega

theorem idLtb_total (a b : ChainId) :
    idLtb a b = true ∨ a = b ∨ idLtb b a = true := by
  rcases a with ⟨a1, a2, a3⟩
  rcases b with ⟨b1, b2, b3⟩
  simp only [idLtb_iff, Prod.mk.injEq]
  omega

theorem idLtb_ne {a b : ChainId} (h : idLtb a b = true) : a ≠ b := by
  intro hab
  rw [hab, idLtb_irrefl] at h
  exact Bool.false_ne_true h

/-! ## Membership and sortedness through the chain-list operations -/

theorem add_peer_to_chains_mem_id {s : Nat} {r : Nat} {sl : Nat}
    {p : Nat} {b : SyncingChain} :
    ∀ {l : List SyncingChain}, b ∈ add_peer_to_chains s r sl p l →
      b.id = (s, r, sl) ∨ ∃ c0 ∈ l, b.id = c0.id := by
  intro l
  induction l with
  | nil =>
    intro hb
    rcases List.mem_singleton.mp hb with rfl
    exact Or.inl rfl
  | cons c t ih =>
    intro hb
    by_cases h1 : c.id = (s, r, sl)
    · rw [add_peer_to_chains, if_pos h1] at hb
      rcases List.mem_cons.mp hb with rfl | hbt
      · exact Or.inr ⟨c, List.mem_cons_self c t, rfl⟩
      · exact Or.inr ⟨b, List.mem_cons_of_mem c hbt, rfl⟩
    · by_cases h2 : idLtb (s, r, sl) c.id = true
      · rw [add_peer_to_chains, if_neg h1, if_pos h2] at hb
        rcases List.mem_cons.mp hb with rfl | hbt
        · exact Or.inl rfl
        · exact Or.inr ⟨b, hbt, rfl⟩
      · rw [add_peer_to_chains, if_neg h1, if_neg h2] at hb
        rcases List.mem_cons.mp hb with rfl | hbt
        · exact Or.inr ⟨b, List.mem_cons_self b t, rfl⟩
        · rcases ih hbt with h | ⟨c0, hc0, hid⟩
          · exact Or.inl h
          · exact Or.inr ⟨c0, List.mem_cons_of_mem c hc0, hid⟩

theorem ChainsSorted_add {s : Nat} {r : Nat} {sl : Nat} {p : Nat} :
    ∀ {l : List SyncingChain}, ChainsSorted l →
      ChainsSorted (add_peer_to_chains s r sl p l) := by
  intro l
  induction l with
  | nil =>
    intro _
    exact List.pairwise_singleton _ _
  | cons c t ih =>
    intro h
    have hc := List.pairwise_cons.mp h
    by_cases h1 : c.id = (s, r, sl)
    · rw [add_peer_to_chains, if_pos h1]
      exact List.pairwise_cons.mpr ⟨fun b hb => hc.1 b hb, hc.2⟩
    · by_cases h2 : idLtb (s, r, sl) c.id = true
      · rw [add_peer_to_chains, if_neg h1, if_pos h2]
        refine List.pairwise_cons.mpr ⟨?_, h⟩
        intro b hb
        rcases List.mem_cons.mp hb with rfl | hbt
        · exact h2
        · exact idLtb_trans h2 (hc.1 b hbt)
      · rw [add_peer_to_chains, if_neg h1, if_neg h2]
        refine List.pairwise_cons.mpr ⟨?_, ih hc.2⟩
        intro b hb
        rcases add_peer_to_chains_mem_id hb with hid | ⟨c0, hc0, hid⟩
        · rcases idLtb_total c.id (s, r, sl) with ht | ht | ht
          · rw [hid]; exact ht
          · exact absurd ht h1
          · exact absurd ht h2
        · rw [hid]; exact hc.1 c0 hc0

theorem call_all_remove_mem {p : Nat} {b : SyncingChain} :
    ∀ {l : List SyncingChain}, b ∈ (call_all_remove p l).1 →
      ∃ c0 ∈ l, b = { c0 with peers := c0.peers.erase p } := by
  intro l
  induction l with
  | nil => intro hb; simp [call_all_remove] at hb
  | cons c t ih =>
    intro hb
    rw [call_all_remove] at hb
    rcases hcc : (SyncingChain.remove_peer p c).2 with _ | r
    · rw [hcc] at hb
      simp only at hb
      rcases List.mem_cons.mp hb with rfl | hbt
      · exact ⟨c, List.mem_cons_self c t, rfl⟩
      · rcases ih hbt with ⟨c0, hc0, he⟩
        exact ⟨c0, List.mem_cons_of_mem c hc0, he⟩
    · rw [hcc] at hb
      simp only at hb
      rcases ih hb with ⟨c0, hc0, he⟩
      exact ⟨c0, List.mem_cons_of_mem c hc0, he⟩

theorem call_all_remove_sorted {p : Nat} :
    ∀ {l : List SyncingChain}, ChainsSorted l →
      ChainsSorted (call_all_remove p l).1 := by
  intro l
  induction l with
  | nil => intro _; exact List.Pairwise.nil
  | cons c t ih =>
    intro h
    have hc := List.pairwise_cons.mp h
    rw [call_all_remove]
    rcases hcc : (SyncingChain.remove_peer p c).2 with _ | r
    · simp only
      refine List.pairwise_cons.mpr ⟨?_, ih hc.2⟩
      intro b hb
      rcases call_all_remove_mem hb with ⟨c0, hc0, rfl⟩
      exact hc.1 c0 hc0
    · simp only
      exact ih hc.2

theorem sorted_filter {q : SyncingChain → Bool} {l : List SyncingChain}
    (h : ChainsSorted l) : ChainsSorted (l.filter q) :=
  h.sublist (List.filter_sublist l)

theorem sorted_map_state (g : SyncingChain → SyncingChain)
    (hg : ∀ c, (g c).id = c.id) {l : List SyncingChain}
    (h : ChainsSorted l) : ChainsSorted (l.map g) := by
  rw [ChainsSorted, List.pairwise_map]
  refine h.imp ?_
  intro a b hab
  rw [hg a, hg b]
  exact hab

theorem drain_fold_sorted (spe : Nat) (local_info : SyncInfo) :
    ∀ (aw : AwaitingMap) {l : List SyncingChain}, ChainsSorted l →
      ChainsSorted (aw.foldl (drain_entry spe local_info) l) := by
  intro aw
  induction aw with
  | nil => intro l h; exact h
  | cons e t ih =>
    intro l h
    exact ih (ChainsSorted_add h)

theorem update_sorted (spe : Nat) (local_info : SyncInfo)
    (cc : ChainCollection) (aw : AwaitingMap)
    (hf : ChainsSorted cc.finalized_chains)
    (hh : ChainsSorted cc.head_chains) :
    ChainsSorted (ChainCollection.update spe local_info cc aw).1.finalized_chains ∧
    ChainsSorted (ChainCollection.update spe local_info cc aw).1.head_chains := by
  simp only [ChainCollection.update]
  cases hfs : cc.finalized_chains.filter (chain_keep spe local_info) with
  | nil =>
    dsimp only
    exact ⟨List.Pairwise.nil,
      sorted_map_state (fun c => { c with state := ChainSyncState.Syncing }) (fun c => rfl)
        (sorted_filter (drain_fold_sorted spe local_info aw (sorted_filter hh)))⟩
  | cons c t =>
    dsimp only
    have hct : ChainsSorted (c :: t) := hfs ▸ sorted_filter hf
    exact ⟨sorted_map_state
        (fun d => { d with state :=
          if d.id = elect_from c t then ChainSyncState.Syncing else ChainSyncState.Stopped })
        (fun d => rfl) hct,
      sorted_map_state (fun d => { d with state := ChainSyncState.Syncing })
        (fun d => rfl) (sorted_filter hh)⟩

/-! ## At most one syncing finalized chain -/

theorem countP_id_le_one (e : ChainId) :
    ∀ {l : List SyncingChain}, ChainsSorted l →
      l.countP (fun d => decide (d.id = e)) ≤ 1 := by
  intro l
  induction l with
  | nil => intro _; simp
  | cons c t ih =>
    intro h
    have hc := List.pairwise_cons.mp h
    rw [List.countP_cons]
    by_cases hce : c.id = e
    · have hz : t.countP (fun d => decide (d.id = e)) = 0 := by
        rw [List.countP_eq_zero]
        intro d hd
        simp only [decide_eq_true_eq]
        exact fun hde => (idLtb_ne (hc.1 d hd)) (hce.trans hde.symm)
      simp [hce, hz]
    · simp only [hce, decide_eq_true_eq, if_neg hce]
      simpa using ih hc.2

theorem update_syncing_le_one (spe : Nat) (local_info : SyncInfo)
    (cc : ChainCollection) (aw : AwaitingMap)
    (hf : ChainsSorted cc.finalized_chains) :
    (ChainCollection.update spe local_info cc aw).1.finalized_chains.countP
      (fun c => decide (c.state = ChainSyncState.Syncing)) ≤ 1 := by
  simp only [ChainCollection.update]
  cases hfs : cc.finalized_chains.filter (chain_keep spe local_info) with
  | nil => dsimp only; simp
  | cons c t =>
    dsimp only
    rw [List.countP_map]
    have hct : ChainsSorted (c :: t) := hfs ▸ sorted_filter hf
    have hcongr : (c :: t).countP
        ((fun x => decide (x.state = ChainSyncState.Syncing)) ∘
          (fun d => { d with state :=
            if d.id = elect_from c t then ChainSyncState.Syncing else ChainSyncState.Stopped })) =
        (c :: t).countP (fun d => decide (d.id = elect_from c t)) := by
      refine List.countP_congr ?_
      intro d _
      by_cases hd : d.id = elect_from c t <;> simp [hd]
    rw [hcongr]
    exact countP_id_le_one (elect_from c t) hct

instance (l : List SyncingChain) : Decidable (ChainsSorted l) :=
  inferInstanceAs (Decidable (List.Pairwise _ l))

/-- The number of syncing finalized chains, the quantity the amended C2
speaks about. -/
def syncing_finalized_count (cc : ChainCollection) : Nat :=
  cc.finalized_chains.countP (fun c => decide (c.state = ChainSyncState.Syncing))

theorem remove_peer_fold_sorted (spe now : Nat)
    (l : List (SyncingChain × RangeSyncType)) :
    ∀ (acc : RangeSync × List Effect),
      ChainsSorted acc.1.chains.finalized_chains →
      ChainsSorted acc.1.chains.head_chains →
      ChainsSorted ((l.foldl
        (fun acc x =>
          let o := RangeSync.on_chain_removed spe now acc.1 x.1 x.2 .EmptyPeerPool
          (o.1, acc.2 ++ o.2)) acc).1.chains.finalized_chains) ∧
      ChainsSorted ((l.foldl
        (fun acc x =>
          let o := RangeSync.on_chain_removed spe now acc.1 x.1 x.2 .EmptyPeerPool
          (o.1, acc.2 ++ o.2)) acc).1.chains.head_chains) := by
  induction l with
  | nil => intro acc hf hh; exact ⟨hf, hh⟩
  | cons x xs ih =>
    intro acc hf hh
    rw [List.foldl_cons]
    refine ih _ ?_ ?_
    · exact (update_sorted spe acc.1.beacon_status acc.1.chains
        acc.1.awaiting_head_peers hf hh).1
    · exact (update_sorted spe acc.1.beacon_status acc.1.chains
        acc.1.awaiting_head_peers hf hh).2

/-! ## C2 -/

/-- C2 counterexample: starting from an empty coordinator, peer 7 first
reports finalized root 101 and then re-reports finalized root 102 (both
calls classified Finalized, neither root blacklisted).  After the second
`add_peer` call peer 7 sits in the pools of **two** distinct finalized
chains, refuting the claim that a peer in some finalized chain's pool is in
exactly one finalized chain's pool.  (The source itself notes this:
`range.rs:123` — "a peer that has been re-status'd may now exist in
multiple finalized chains".) -/
theorem add_peer_two_finalized_pools_cex :
    ((RangeSync.add_peer 8 0
        (RangeSync.add_peer 8 0 ⟨⟨0, 0, 0, 0⟩, [], ⟨[], []⟩, []⟩
          ⟨0, 0, 0, 0⟩ 7 ⟨16, 201, 2, 101⟩).1
        ⟨0, 0, 0, 0⟩ 7 ⟨16, 202, 2, 102⟩).1.chains.finalized_chains.countP
      (fun c => decide (7 ∈ c.peers))) = 2 := by decide

/-- C2 amended: a peer may belong to several finalized chains' pools at
once (see the counterexample); what every event preserves is that **at
most one finalized chain is actively syncing**, which is what makes the
sharing harmless (`range.rs:124`).  Here: `add_peer` preserves
"at most one finalized chain is in `Syncing` state". -/
theorem add_peer_at_most_one_syncing_finalized (spe now : Nat)
    (rs : RangeSync) (local_info : SyncInfo) (peer_id : Nat)
    (remote_info : SyncInfo)
    (hf : ChainsSorted rs.chains.finalized_chains)
    (hh : ChainsSorted rs.chains.head_chains)
    (hpre : syncing_finalized_count rs.chains ≤ 1) :
    syncing_finalized_count
      (RangeSync.add_peer spe now rs local_info peer_id remote_info).1.chains ≤ 1 := by
  rcases hty : RangeSyncType.new spe local_info remote_info with _ | ty
  · unfold RangeSync.add_peer
    rw [hty]
    exact hpre
  · cases ty with
    | Finalized =>
      by_cases hfail :
          failed_chains_contains rs.failed_chains now remote_info.finalized_root = true
      · unfold RangeSync.add_peer
        rw [hty]
        simp only [hfail, if_true]
        exact hpre
      · unfold RangeSync.add_peer
        rw [hty]
        simp only [hfail, if_false, Bool.false_eq_true]
        exact update_syncing_le_one spe local_info _ _ (ChainsSorted_add hf)
    | Head =>
      by_cases hfin : rs.chains.is_finalizing_sync = true
      · unfold RangeSync.add_peer
        rw [hty]
        simp only [hfin, if_true]
        exact hpre
      · unfold RangeSync.add_peer
        rw [hty]
        simp only [hfin, if_false, Bool.false_eq_true]
        exact update_syncing_le_one spe local_info _ _
          ((remove_peer_fold_sorted spe now _ _
            (call_all_remove_sorted hf) (call_all_remove_sorted hh)).1)

theorem add_peer_at_most_one_syncing_finalized_witness :
    syncing_finalized_count
      (RangeSync.add_peer 8 0
        ⟨⟨0, 0, 0, 0⟩, [], ⟨[⟨0, 101, 33, {7}, ChainSyncState.Syncing⟩], []⟩, []⟩
        ⟨0, 0, 0, 0⟩ 9 ⟨16, 202, 2, 102⟩).1.chains ≤ 1 :=
  add_peer_at_most_one_syncing_finalized 8 0
    ⟨⟨0, 0, 0, 0⟩, [], ⟨[⟨0, 101, 33, {7}, ChainSyncState.Syncing⟩], []⟩, []⟩
    ⟨0, 0, 0, 0⟩ 9 ⟨16, 202, 2, 102⟩ (by decide) (by decide) (by decide)

/-! ## C3 -/

theorem on_chain_removed_failed_pos (spe now : Nat) (rs : RangeSync)
    (chain : SyncingChain) :
    (RangeSync.on_chain_removed spe now rs chain RangeSyncType.Finalized
        (RemoveChain.ChainFailed true)).1.failed_chains =
      (chain.target_head_root, now) :: rs.failed_chains := by
  unfold RangeSync.on_chain_removed
  dsimp only
  split
  · rfl
  · rename_i hne
    exact absurd ⟨by trivial, by trivial⟩ hne

theorem on_chain_removed_failed_neg (spe now : Nat) (rs : RangeSync)
    (chain : SyncingChain) (sync_type : RangeSyncType)
    (remove_reason : RemoveChain)
    (hc : ¬(remove_reason = RemoveChain.ChainFailed true ∧
        sync_type = RangeSyncType.Finalized)) :
    (RangeSync.on_chain_removed spe now rs chain sync_type remove_reason).1.failed_chains =
      rs.failed_chains := by
  unfold RangeSync.on_chain_removed
  rcases remove_reason with _ | b | _
  · rfl
  · dsimp only
    have hng : ¬(RangeSyncType.Finalized = sync_type ∧ b = true) := by
      rintro ⟨h1, h2⟩
      exact hc ⟨by rw [h2], h1.symm⟩
    rw [if_neg hng]
  · rfl

/-- C3: in `on_chain_removed`, the chain's `target_head_root` is inserted
into the failed-chain cache exactly when the removal reason is
`ChainFailed` with `blacklist = true` and the chain's sync type is
Finalized; an entry inserted at `now` is contained for every query instant
in `[now, now + FAILED_CHAINS_EXPIRY_SECONDS)` and contributes nothing at or
after `now + FAILED_CHAINS_EXPIRY_SECONDS` — expiry depends only on the
insertion time (the membership test mutates nothing), and
`FAILED_CHAINS_EXPIRY_SECONDS = 30`. -/
theorem on_chain_removed_failed_cache_spec (spe now : Nat) (rs : RangeSync)
    (chain : SyncingChain) (sync_type : RangeSyncType)
    (remove_reason : RemoveChain) :
    (remove_reason = RemoveChain.ChainFailed true ∧ sync_type = RangeSyncType.Finalized →
      (RangeSync.on_chain_removed spe now rs chain sync_type remove_reason).1.failed_chains =
        (chain.target_head_root, now) :: rs.failed_chains) ∧
    (¬(remove_reason = RemoveChain.ChainFailed true ∧ sync_type = RangeSyncType.Finalized) →
      (RangeSync.on_chain_removed spe now rs chain sync_type remove_reason).1.failed_chains =
        rs.failed_chains) ∧
    (∀ t, now ≤ t → t < now + FAILED_CHAINS_EXPIRY_SECONDS →
      failed_chains_contains
        ((RangeSync.on_chain_removed spe now rs chain RangeSyncType.Finalized
            (RemoveChain.ChainFailed true)).1.failed_chains)
        t chain.target_head_root = true) ∧
    (∀ t, now + FAILED_CHAINS_EXPIRY_SECONDS ≤ t →
      failed_chains_contains
        ((RangeSync.on_chain_removed spe now rs chain RangeSyncType.Finalized
            (RemoveChain.ChainFailed true)).1.failed_chains)
        t chain.target_head_root =
      failed_chains_contains rs.failed_chains t chain.target_head_root) ∧
    FAILED_CHAINS_EXPIRY_SECONDS = 30 := by
  have hins := on_chain_removed_failed_pos spe now rs chain
  refine ⟨?_, ?_, ?_, ?_, rfl⟩
  · rintro ⟨h1, h2⟩
    subst h1
    subst h2
    exact on_chain_removed_failed_pos spe now rs chain
  · intro hc
    exact on_chain_removed_failed_neg spe now rs chain sync_type remove_reason hc
  · intro t h1 h2
    rw [hins]
    unfold failed_chains_contains
    rw [List.any_cons]
    have : decide (chain.target_head_root = chain.target_head_root ∧
        t < now + FAILED_CHAINS_EXPIRY_SECONDS) = true := by
      simp only [decide_eq_true_eq]
      exact ⟨by trivial, h2⟩
    rw [this, Bool.true_or]
  · intro t h1
    rw [hins]
    unfold failed_chains_contains
    rw [List.any_cons]
    have : decide (chain.target_head_root = chain.target_head_root ∧
        t < now + FAILED_CHAINS_EXPIRY_SECONDS) = false := by
      simp only [decide_eq_false_iff_not]
      intro hcon
      omega
    rw [this, Bool.false_or]

theorem on_chain_removed_failed_cache_spec_witness :
    (RangeSync.on_chain_removed 8 100 ⟨⟨0, 0, 0, 0⟩, [], ⟨[], []⟩, []⟩
        ⟨0, 5, 33, {7}, ChainSyncState.Syncing⟩ RangeSyncType.Finalized
        (RemoveChain.ChainFailed true)).1.failed_chains = [(5, 100)] ∧
    failed_chains_contains [(5, 100)] 129 5 = true ∧
    failed_chains_contains [(5, 100)] 130 5 = failed_chains_contains [] 130 5 := by
  have h := on_chain_removed_failed_cache_spec 8 100 ⟨⟨0, 0, 0, 0⟩, [], ⟨[], []⟩, []⟩
    ⟨0, 5, 33, {7}, ChainSyncState.Syncing⟩ RangeSyncType.Finalized
    (RemoveChain.ChainFailed true)
  have h1 := h.1 ⟨rfl, rfl⟩

  refine ⟨h1, ?_, ?_⟩
  · have h2 := h.2.2.1 129 (by decide) (by decide)
    rw [h1] at h2
    exact h2
  · have h3 := h.2.2.2.1 130 (by decide)
    rw [h1] at h3
    exact h3

/-! ## C4 -/

theorem add_peer_to_chains_target {s r sl p : Nat} :
    ∀ (l : List SyncingChain), ∃ c ∈ add_peer_to_chains s r sl p l,
      c.id = (s, r, sl) ∧ p ∈ c.peers := by
  intro l
  induction l with
  | nil =>
    exact ⟨⟨s, r, sl, {p}, .Stopped⟩, List.mem_singleton_self _, rfl,
      Finset.mem_singleton_self p⟩
  | cons c t ih =>
    by_cases h1 : c.id = (s, r, sl)
    · refine ⟨{ c with peers := insert p c.peers }, ?_, h1, Finset.mem_insert_self p c.peers⟩
      rw [add_peer_to_chains, if_pos h1]
      exact List.mem_cons_self _ _
    · by_cases h2 : idLtb (s, r, sl) c.id = true
      · refine ⟨⟨s, r, sl, {p}, .Stopped⟩, ?_, rfl, Finset.mem_singleton_self p⟩
        rw [add_peer_to_chains, if_neg h1, if_pos h2]
        exact List.mem_cons_self _ _
      · rcases ih with ⟨d, hd, hdid, hdp⟩
        refine ⟨d, ?_, hdid, hdp⟩
        rw [add_peer_to_chains, if_neg h1, if_neg h2]
        exact List.mem_cons_of_mem c hd

theorem update_keeps_chain (spe : Nat) (local_info : SyncInfo)
    (cc : ChainCollection) (aw : AwaitingMap) {c : SyncingChain}
    (hc : c ∈ cc.finalized_chains) (hk : chain_keep spe local_info c = true) :
    ∃ d ∈ (ChainCollection.update spe local_info cc aw).1.finalized_chains,
      d.start_epoch = c.start_epoch ∧ d.target_head_root = c.target_head_root ∧
      d.target_head_slot = c.target_head_slot ∧ d.peers = c.peers := by
  simp only [ChainCollection.update]
  have hcf : c ∈ cc.finalized_chains.filter (chain_keep spe local_info) :=
    List.mem_filter.mpr ⟨hc, hk⟩
  cases hfs : cc.finalized_chains.filter (chain_keep spe local_info) with
  | nil =>
    rw [hfs] at hcf
    exact absurd hcf (List.not_mem_nil c)
  | cons a t =>
    dsimp only
    rw [hfs] at hcf
    exact ⟨_, List.mem_map_of_mem _ hcf, rfl, rfl, rfl, rfl⟩

/-- C4: a peer classified Finalized whose finalized root is not
blacklisted is added to a finalized chain (created or extended) whose
`start_epoch` is the local finalized epoch, whose `target_head_root` is the
remote finalized root, and whose `target_head_slot` is the start slot of
the remote finalized epoch plus `2 · slots_per_epoch + 1`
(`range.rs:145`); that chain survives the collection update that follows.
`spe` stands for `slots_per_epoch`. -/
theorem add_peer_finalized_chain_target (spe now : Nat) (rs : RangeSync)
    (local_info : SyncInfo) (peer_id : Nat) (remote_info : SyncInfo)
    (hty : RangeSyncType.new spe local_info remote_info = some RangeSyncType.Finalized)
    (hfail : failed_chains_contains rs.failed_chains now
      remote_info.finalized_root = false) :
    ∃ c ∈ (RangeSync.add_peer spe now rs
        local_info peer_id remote_info).1.chains.finalized_chains,
      c.start_epoch = local_info.finalized_epoch ∧
      c.target_head_root = remote_info.finalized_root ∧
      c.target_head_slot = remote_info.finalized_epoch * spe + 2 * spe + 1 ∧
      peer_id ∈ c.peers := by
  unfold RangeSync.add_peer
  rw [hty]
  simp only [hfail, Bool.false_eq_true, if_false]
  rcases @add_peer_to_chains_target local_info.finalized_epoch
      remote_info.finalized_root
      (remote_info.finalized_epoch * spe + 2 * spe + 1) peer_id
      rs.chains.finalized_chains with ⟨c, hcmem, hcid, hcp⟩
  have hse : c.start_epoch = local_info.finalized_epoch := congrArg Prod.fst hcid
  have hrt : c.target_head_root = remote_info.finalized_root :=
    congrArg (fun x => x.2.1) hcid
  have hsl : c.target_head_slot = remote_info.finalized_epoch * spe + 2 * spe + 1 :=
    congrArg (fun x => x.2.2) hcid
  have hkeep : chain_keep spe local_info c = true := by
    unfold chain_keep
    have hlt := rangeSyncType_finalized_lt hty
    have hmul : local_info.finalized_epoch * spe ≤ remote_info.finalized_epoch * spe :=
      Nat.mul_le_mul_right spe (Nat.le_of_lt hlt)
    have h1 : local_info.finalized_epoch * spe < c.target_head_slot := by
      rw [hsl]
      omega
    have h2 : c.peers ≠ ∅ := Finset.ne_empty_of_mem hcp
    simp [h1, h2]
  rcases update_keeps_chain spe local_info
      (ChainCollection.add_peer_or_create_chain local_info.finalized_epoch
        remote_info.finalized_root (remote_info.finalized_epoch * spe + 2 * spe + 1)
        peer_id .Finalized rs.chains)
      (aw_erase peer_id rs.awaiting_head_peers) hcmem hkeep with
    ⟨d, hdmem, hd1, hd2, hd3, hd4⟩
  exact ⟨d, hdmem, hd1.trans hse, hd2.trans hrt, hd3.trans hsl, hd4 ▸ hcp⟩

theorem add_peer_finalized_chain_target_witness :
    ∃ c ∈ (RangeSync.add_peer 8 0 ⟨⟨0, 0, 0, 0⟩, [], ⟨[], []⟩, []⟩
        ⟨0, 0, 0, 0⟩ 7 ⟨16, 201, 2, 101⟩).1.chains.finalized_chains,
      c.start_epoch = (0 : Nat) ∧
      c.target_head_root = (101 : Nat) ∧
      c.target_head_slot = 2 * 8 + 2 * 8 + 1 ∧
      (7 : Nat) ∈ c.peers :=
  add_peer_finalized_chain_target 8 0 ⟨⟨0, 0, 0, 0⟩, [], ⟨[], []⟩, []⟩
    ⟨0, 0, 0, 0⟩ 7 ⟨16, 201, 2, 101⟩ (by decide) (by decide)

/-! ## C9 -/

theorem add_peer_to_chains_peer_src {s r sl p q : Nat} :
    ∀ {l : List SyncingChain} {c : SyncingChain},
      c ∈ add_peer_to_chains s r sl p l → q ∈ c.peers →
      q = p ∨ ∃ c0 ∈ l, q ∈ c0.peers := by
  intro l
  induction l with
  | nil =>
    intro c hc hq
    rcases List.mem_singleton.mp hc with rfl
    exact Or.inl (Finset.mem_singleton.mp hq)
  | cons c t ih =>
    intro d hd hq
    by_cases h1 : c.id = (s, r, sl)
    · rw [add_peer_to_chains, if_pos h1] at hd
      rcases List.mem_cons.mp hd with rfl | hdt
      · rcases Finset.mem_insert.mp hq with hqp | hqc
        · exact Or.inl hqp
        · exact Or.inr ⟨c, List.mem_cons_self c t, hqc⟩
      · exact Or.inr ⟨d, List.mem_cons_of_mem c hdt, hq⟩
    · by_cases h2 : idLtb (s, r, sl) c.id = true
      · rw [add_peer_to_chains, if_neg h1, if_pos h2] at hd
        rcases List.mem_cons.mp hd with rfl | hdt
        · exact Or.inl (Finset.mem_singleton.mp hq)
        · exact Or.inr ⟨d, hdt, hq⟩
      · rw [add_peer_to_chains, if_neg h1, if_neg h2] at hd
        rcases List.mem_cons.mp hd with rfl | hdt
        · exact Or.inr ⟨d, List.mem_cons_self d t, hq⟩
        · rcases ih hdt hq with h | ⟨c0, hc0, hqc0⟩
          · exact Or.inl h
          · exact Or.inr ⟨c0, List.mem_cons_of_mem c hc0, hqc0⟩

theorem update_finalized_peers_src (spe : Nat) (local_info : SyncInfo)
    (cc : ChainCollection) (aw : AwaitingMap) {d : SyncingChain}
    (hd : d ∈ (ChainCollection.update spe local_info cc aw).1.finalized_chains) :
    ∃ c0 ∈ cc.finalized_chains, d.peers = c0.peers := by
  simp only [ChainCollection.update] at hd
  rcases hfs : cc.finalized_chains.filter (chain_keep spe local_info) with _ | ⟨a, t⟩
  · rw [hfs] at hd
    dsimp only at hd
    exact absurd hd (List.not_mem_nil d)
  · rw [hfs] at hd
    dsimp only at hd
    rcases List.mem_map.mp hd with ⟨c0, hc0, rfl⟩
    have hm : c0 ∈ cc.finalized_chains.filter (chain_keep spe local_info) := by
      rw [hfs]; exact hc0
    exact ⟨c0, (List.mem_filter.mp hm).1, rfl⟩

theorem update_aw_cases (spe : Nat) (local_info : SyncInfo)
    (cc : ChainCollection) (aw : AwaitingMap) :
    (ChainCollection.update spe local_info cc aw).2 = aw ∨
    (ChainCollection.update spe local_info cc aw).2 = [] := by
  simp only [ChainCollection.update]
  cases cc.finalized_chains.filter (chain_keep spe local_info) with
  | nil => exact Or.inr rfl
  | cons a t => exact Or.inl rfl

/-- C9: when a peer classified Finalized (with a non-blacklisted root) is
added, its entry in `awaiting_head_peers` is removed (`range.rs:139`), so
after the call the peer is not parked; moreover, if before the call no
parked peer sat in any finalized chain's pool, the same holds after it —
no peer is simultaneously an awaiting-head peer and a member of a
finalized chain's pool. -/
theorem add_peer_finalized_clears_awaiting (spe now : Nat) (rs : RangeSync)
    (local_info : SyncInfo) (peer_id : Nat) (remote_info : SyncInfo)
    (hty : RangeSyncType.new spe local_info remote_info = some RangeSyncType.Finalized)
    (hfail : failed_chains_contains rs.failed_chains now
      remote_info.finalized_root = false)
    (haws : List.Pairwise (fun a b => a.1 < b.1) rs.awaiting_head_peers)
    (hpre : ∀ q info, (q, info) ∈ rs.awaiting_head_peers →
      ∀ c ∈ rs.chains.finalized_chains, q ∉ c.peers) :
    aw_lookup peer_id
      (RangeSync.add_peer spe now rs local_info peer_id
        remote_info).1.awaiting_head_peers = none ∧
    ∀ q info,
      (q, info) ∈ (RangeSync.add_peer spe now rs local_info peer_id
        remote_info).1.awaiting_head_peers →
      ∀ c ∈ (RangeSync.add_peer spe now rs local_info peer_id
        remote_info).1.chains.finalized_chains, q ∉ c.peers := by
  unfold RangeSync.add_peer
  rw [hty]
  simp only [hfail, Bool.false_eq_true, if_false]
  constructor
  · show aw_lookup peer_id (ChainCollection.update spe local_info _
      (aw_erase peer_id rs.awaiting_head_peers)).2 = none
    rcases update_aw_cases spe local_info
        (ChainCollection.add_peer_or_create_chain local_info.finalized_epoch
          remote_info.finalized_root (remote_info.finalized_epoch * spe + 2 * spe + 1)
          peer_id .Finalized rs.chains)
        (aw_erase peer_id rs.awaiting_head_peers) with hu | hu
    · rw [hu]
      exact aw_lookup_erase_self peer_id haws
    · rw [hu]
      rfl
  · intro q info hq c hc hqc
    have hq2 : (q, info) ∈ (ChainCollection.update spe local_info
        (ChainCollection.add_peer_or_create_chain local_info.finalized_epoch
          remote_info.finalized_root (remote_info.finalized_epoch * spe + 2 * spe + 1)
          peer_id .Finalized rs.chains)
        (aw_erase peer_id rs.awaiting_head_peers)).2 := hq
    have hc2 : c ∈ (ChainCollection.update spe local_info
        (ChainCollection.add_peer_or_create_chain local_info.finalized_epoch
          remote_info.finalized_root (remote_info.finalized_epoch * spe + 2 * spe + 1)
          peer_id .Finalized rs.chains)
        (aw_erase peer_id rs.awaiting_head_peers)).1.finalized_chains := hc
    rcases update_aw_cases spe local_info
        (ChainCollection.add_peer_or_create_chain local_info.finalized_epoch
          remote_info.finalized_root (remote_info.finalized_epoch * spe + 2 * spe + 1)
          peer_id .Finalized rs.chains)
        (aw_erase peer_id rs.awaiting_head_peers) with hu | hu
    · rw [hu] at hq2
      have hqa := aw_erase_key_ne haws hq2
      rcases update_finalized_peers_src spe local_info _ _ hc2 with ⟨c0, hc0, hpeq⟩
      rw [hpeq] at hqc
      rcases add_peer_to_chains_peer_src hc0 hqc with hqp | ⟨c1, hc1, hqc1⟩
      · exact hqa.2 hqp
      · exact hpre q info hqa.1 c1 hc1 hqc1
    · rw [hu] at hq2
      exact absurd hq2 (List.not_mem_nil (q, info))

theorem add_peer_finalized_clears_awaiting_witness :
    aw_lookup 7
      (RangeSync.add_peer 8 0
        ⟨⟨0, 0, 0, 0⟩, [(7, ⟨100, 301, 0, 0⟩)], ⟨[], []⟩, []⟩
        ⟨0, 0, 0, 0⟩ 7 ⟨16, 201, 2, 101⟩).1.awaiting_head_peers = none :=
  (add_peer_finalized_clears_awaiting 8 0
    ⟨⟨0, 0, 0, 0⟩, [(7, ⟨100, 301, 0, 0⟩)], ⟨[], []⟩, []⟩
    ⟨0, 0, 0, 0⟩ 7 ⟨16, 201, 2, 101⟩ (by decide) (by decide) (by decide)
    (fun q info hq c hc => absurd hc (List.not_mem_nil c))).1

/-! ## C10 -/

theorem aw_lookup_none_imp {p : Nat} :
    ∀ {l : AwaitingMap}, aw_lookup p l = none → ∀ e ∈ l, e.1 ≠ p := by
  intro l
  induction l with
  | nil => intro _ e he; exact absurd he (List.not_mem_nil e)
  | cons u t ih =>
    intro h e he
    rw [aw_lookup] at h
    by_cases hu : u.1 = p
    · rw [if_pos hu] at h
      exact absurd h (Option.some_ne_none _)
    · rw [if_neg hu] at h
      rcases List.mem_cons.mp he with rfl | het
      · exact hu
      · exact ih h e het

theorem add_peer_to_chains_cases {s r sl p : Nat} :
    ∀ {l : List SyncingChain} {c : SyncingChain},
      c ∈ add_peer_to_chains s r sl p l →
      c ∈ l ∨ c = ⟨s, r, sl, {p}, .Stopped⟩ ∨
      ∃ c1 ∈ l, c1.id = (s, r, sl) ∧ c = { c1 with peers := insert p c1.peers } := by
  intro l
  induction l with
  | nil =>
    intro c hc
    exact Or.inr (Or.inl (List.mem_singleton.mp hc))
  | cons a t ih =>
    intro c hc
    by_cases h1 : a.id = (s, r, sl)
    · rw [add_peer_to_chains, if_pos h1] at hc
      rcases List.mem_cons.mp hc with rfl | hct
      · exact Or.inr (Or.inr ⟨a, List.mem_cons_self a t, h1, rfl⟩)
      · exact Or.inl (List.mem_cons_of_mem a hct)
    · by_cases h2 : idLtb (s, r, sl) a.id = true
      · rw [add_peer_to_chains, if_neg h1, if_pos h2] at hc
        rcases List.mem_cons.mp hc with rfl | hct
        · exact Or.inr (Or.inl rfl)
        · exact Or.inl hct
      · rw [add_peer_to_chains, if_neg h1, if_neg h2] at hc
        rcases List.mem_cons.mp hc with rfl | hct
        · exact Or.inl (List.mem_cons_self c t)
        · rcases ih hct with h | h | ⟨c1, hc1, hid, he⟩
          · exact Or.inl (List.mem_cons_of_mem a h)
          · exact Or.inr (Or.inl h)
          · exact Or.inr (Or.inr ⟨c1, List.mem_cons_of_mem a hc1, hid, he⟩)

theorem drain_fold_peer_src {q : Nat} (spe : Nat) (local_info : SyncInfo) :
    ∀ (aw : AwaitingMap) (hs : List SyncingChain) {d : SyncingChain},
      d ∈ aw.foldl (drain_entry spe local_info) hs → q ∈ d.peers →
      (∃ c0 ∈ hs, q ∈ c0.peers) ∨ ∃ e ∈ aw, e.1 = q := by
  intro aw
  induction aw with
  | nil =>
    intro hs d hd hq
    exact Or.inl ⟨d, hd, hq⟩
  | cons en t ih =>
    intro hs d hd hq
    rw [List.foldl_cons] at hd
    rcases ih _ hd hq with ⟨c0, hc0, hqc0⟩ | ⟨e2, he2, hk⟩
    · rcases add_peer_to_chains_peer_src hc0 hqc0 with hqp | ⟨c1, hc1, hqc1⟩
      · exact Or.inr ⟨en, List.mem_cons_self en t, hqp.symm⟩
      · exact Or.inl ⟨c1, hc1, hqc1⟩
    · exact Or.inr ⟨e2, List.mem_cons_of_mem en he2, hk⟩

theorem update_head_peers_src (spe : Nat) (local_info : SyncInfo)
    (cc : ChainCollection) (aw : AwaitingMap) {d : SyncingChain} {q : Nat}
    (hd : d ∈ (ChainCollection.update spe local_info cc aw).1.head_chains)
    (hq : q ∈ d.peers) :
    (∃ c0 ∈ cc.head_chains, q ∈ c0.peers) ∨ ∃ e ∈ aw, e.1 = q := by
  simp only [ChainCollection.update] at hd
  rcases hfs : cc.finalized_chains.filter (chain_keep spe local_info) with _ | ⟨a, t⟩ <;>
    rw [hfs] at hd <;> dsimp only at hd
  · rcases List.mem_map.mp hd with ⟨c0, hc0, rfl⟩
    have hc0b := (List.mem_filter.mp hc0).1
    rcases drain_fold_peer_src spe local_info aw _ hc0b hq with ⟨c1, hc1, hqc1⟩ | he
    · exact Or.inl ⟨c1, (List.mem_filter.mp hc1).1, hqc1⟩
    · exact Or.inr he
  · rcases List.mem_map.mp hd with ⟨c0, hc0, rfl⟩
    exact Or.inl ⟨c0, (List.mem_filter.mp hc0).1, hq⟩

theorem on_chain_removed_chains (spe now : Nat) (S : RangeSync)
    (chain : SyncingChain) (ty : RangeSyncType) (reason : RemoveChain) :
    (RangeSync.on_chain_removed spe now S chain ty reason).1.chains =
      (ChainCollection.update spe S.beacon_status S.chains S.awaiting_head_peers).1 ∧
    (RangeSync.on_chain_removed spe now S chain ty reason).1.awaiting_head_peers =
      (ChainCollection.update spe S.beacon_status S.chains S.awaiting_head_peers).2 ∧
    (RangeSync.on_chain_removed spe now S chain ty reason).1.beacon_status =
      S.beacon_status := by
  unfold RangeSync.on_chain_removed
  rcases reason with _ | b | _
  · exact ⟨rfl, rfl, rfl⟩
  · dsimp only
    split
    · exact ⟨rfl, rfl, rfl⟩
    · exact ⟨rfl, rfl, rfl⟩
  · exact ⟨rfl, rfl, rfl⟩

theorem on_chain_removed_no_peer (spe now : Nat) (S : RangeSync)
    (chain : SyncingChain) (ty : RangeSyncType) (reason : RemoveChain) (p : Nat)
    (h1 : ∀ c ∈ S.chains.finalized_chains, p ∉ c.peers)
    (h2 : ∀ c ∈ S.chains.head_chains, p ∉ c.peers)
    (h3 : ∀ e ∈ S.awaiting_head_peers, e.1 ≠ p) :
    (∀ c ∈ (RangeSync.on_chain_removed spe now S chain ty
        reason).1.chains.finalized_chains, p ∉ c.peers) ∧
    (∀ c ∈ (RangeSync.on_chain_removed spe now S chain ty
        reason).1.chains.head_chains, p ∉ c.peers) ∧
    (∀ e ∈ (RangeSync.on_chain_removed spe now S chain ty
        reason).1.awaiting_head_peers, e.1 ≠ p) := by
  rcases on_chain_removed_chains spe now S chain ty reason with ⟨hcs, has, _⟩
  refine ⟨?_, ?_, ?_⟩
  · intro c hc hpc
    rw [hcs] at hc
    rcases update_finalized_peers_src spe S.beacon_status S.chains
        S.awaiting_head_peers hc with ⟨c0, hc0, hpeq⟩
    rw [hpeq] at hpc
    exact h1 c0 hc0 hpc
  · intro c hc hpc
    rw [hcs] at hc
    rcases update_head_peers_src spe S.beacon_status S.chains
        S.awaiting_head_peers hc hpc with ⟨c0, hc0, hpc0⟩ | ⟨e, he, hk⟩
    · exact h2 c0 hc0 hpc0
    · exact h3 e he hk
  · intro e he
    rw [has] at he
    rcases update_aw_cases spe S.beacon_status S.chains S.awaiting_head_peers
        with hu | hu
    · rw [hu] at he
      exact h3 e he
    · rw [hu] at he
      exact absurd he (List.not_mem_nil e)

theorem remove_fold_no_peer (spe now : Nat) (p : Nat)
    (l : List (SyncingChain × RangeSyncType)) :
    ∀ (acc : RangeSync × List Effect),
      (∀ c ∈ acc.1.chains.finalized_chains, p ∉ c.peers) →
      (∀ c ∈ acc.1.chains.head_chains, p ∉ c.peers) →
      (∀ e ∈ acc.1.awaiting_head_peers, e.1 ≠ p) →
      (∀ c ∈ (l.foldl (fun acc x =>
          let o := RangeSync.on_chain_removed spe now acc.1 x.1 x.2 .EmptyPeerPool
          (o.1, acc.2 ++ o.2)) acc).1.chains.finalized_chains, p ∉ c.peers) ∧
      (∀ c ∈ (l.foldl (fun acc x =>
          let o := RangeSync.on_chain_removed spe now acc.1 x.1 x.2 .EmptyPeerPool
          (o.1, acc.2 ++ o.2)) acc).1.chains.head_chains, p ∉ c.peers) ∧
      (∀ e ∈ (l.foldl (fun acc x =>
          let o := RangeSync.on_chain_removed spe now acc.1 x.1 x.2 .EmptyPeerPool
          (o.1, acc.2 ++ o.2)) acc).1.awaiting_head_peers, e.1 ≠ p) := by
  induction l with
  | nil => intro acc h1 h2 h3; exact ⟨h1, h2, h3⟩
  | cons x xs ih =>
    intro acc h1 h2 h3
    rw [List.foldl_cons]
    rcases on_chain_removed_no_peer spe now acc.1 x.1 x.2 .EmptyPeerPool p h1 h2 h3
      with ⟨g1, g2, g3⟩
    exact ih _ g1 g2 g3

theorem remove_peer_no_peer (spe now : Nat) (rs : RangeSync) (p : Nat)
    (h3 : ∀ e ∈ rs.awaiting_head_peers, e.1 ≠ p) :
    (∀ c ∈ (RangeSync.remove_peer spe now rs p).1.chains.finalized_chains,
      p ∉ c.peers) ∧
    (∀ c ∈ (RangeSync.remove_peer spe now rs p).1.chains.head_chains,
      p ∉ c.peers) ∧
    (∀ e ∈ (RangeSync.remove_peer spe now rs p).1.awaiting_head_peers,
      e.1 ≠ p) := by
  unfold RangeSync.remove_peer
  refine remove_fold_no_peer spe now p _ _ ?_ ?_ h3
  · intro c hc
    rcases call_all_remove_mem hc with ⟨c0, _, rfl⟩
    exact Finset.not_mem_erase p c0.peers
  · intro c hc
    rcases call_all_remove_mem hc with ⟨c0, _, rfl⟩
    exact Finset.not_mem_erase p c0.peers

theorem drain_fold_head_id {p : Nat} {e : ChainId} (spe : Nat)
    (local_info : SyncInfo) :
    ∀ (aw : AwaitingMap) (hs : List SyncingChain),
      (∀ c ∈ hs, p ∈ c.peers → c.id = e) → (∀ en ∈ aw, en.1 ≠ p) →
      ∀ d ∈ aw.foldl (drain_entry spe local_info) hs, p ∈ d.peers → d.id = e := by
  intro aw
  induction aw with
  | nil =>
    intro hs h1 _ d hd hp
    exact h1 d hd hp
  | cons en t ih =>
    intro hs h1 h2 d hd hp
    rw [List.foldl_cons] at hd
    refine ih _ ?_ (fun x hx => h2 x (List.mem_cons_of_mem en hx)) d hd hp
    intro c hc hpc
    rcases add_peer_to_chains_cases hc with hmem | hnew | ⟨c1, hc1, hid, he⟩
    · exact h1 c hmem hpc
    · subst hnew
      exact absurd (Finset.mem_singleton.mp hpc).symm
        (h2 en (List.mem_cons_self en t))
    · subst he
      rcases Finset.mem_insert.mp hpc with hpe | hpc1
      · exact absurd hpe.symm (h2 en (List.mem_cons_self en t))
      · exact h1 c1 hc1 hpc1

theorem update_head_id (spe : Nat) (local_info : SyncInfo)
    (cc : ChainCollection) (aw : AwaitingMap) {p : Nat} {e : ChainId}
    (h1 : ∀ c ∈ cc.head_chains, p ∈ c.peers → c.id = e)
    (h2 : ∀ en ∈ aw, en.1 ≠ p) :
    ∀ d ∈ (ChainCollection.update spe local_info cc aw).1.head_chains,
      p ∈ d.peers → d.id = e := by
  intro d hd hp
  simp only [ChainCollection.update] at hd
  rcases hfs : cc.finalized_chains.filter (chain_keep spe local_info) with _ | ⟨a, t⟩ <;>
    rw [hfs] at hd <;> dsimp only at hd
  · rcases List.mem_map.mp hd with ⟨c0, hc0, rfl⟩
    have hc0b := (List.mem_filter.mp hc0).1
    exact drain_fold_head_id spe local_info aw _
      (fun c hc hpc => h1 c (List.mem_filter.mp hc).1 hpc) h2 c0 hc0b hp
  · rcases List.mem_map.mp hd with ⟨c0, hc0, rfl⟩
    exact h1 c0 (List.mem_filter.mp hc0).1 hp

theorem remove_peer_sorted (spe now : Nat) (rs : RangeSync) (p : Nat)
    (hf : ChainsSorted rs.chains.finalized_chains)
    (hh : ChainsSorted rs.chains.head_chains) :
    ChainsSorted (RangeSync.remove_peer spe now rs p).1.chains.finalized_chains ∧
    ChainsSorted (RangeSync.remove_peer spe now rs p).1.chains.head_chains := by
  unfold RangeSync.remove_peer
  exact remove_peer_fold_sorted spe now _ _
    (call_all_remove_sorted hf) (call_all_remove_sorted hh)

/-- C10: adding a peer classified Head while no finalized sync is in
progress first removes it from every chain's pool and from
`awaiting_head_peers` (`range.rs:175-177`), before adding it to its target
head chain; immediately after the call the peer is in no finalized chain's
pool and in at most one head chain — and any head chain holding it is the
one targeting `(min(local.head_slot, remote.finalized_slot).epoch,
remote.head_root, remote.head_slot)`.  The hypothesis that the peer has no
parked entry reflects that `awaiting_head_peers` is drained whenever no
finalized chain remains, so it is empty in reachable no-finalized states. -/
theorem add_peer_head_single_chain_membership (spe now : Nat)
    (rs : RangeSync) (local_info : SyncInfo) (peer_id : Nat)
    (remote_info : SyncInfo)
    (hty : RangeSyncType.new spe local_info remote_info = some RangeSyncType.Head)
    (hfin : rs.chains.is_finalizing_sync = false)
    (haw : aw_lookup peer_id rs.awaiting_head_peers = none)
    (hf : ChainsSorted rs.chains.finalized_chains)
    (hh : ChainsSorted rs.chains.head_chains) :
    (∀ c ∈ (RangeSync.add_peer spe now rs local_info peer_id
        remote_info).1.chains.finalized_chains, peer_id ∉ c.peers) ∧
    (∀ c ∈ (RangeSync.add_peer spe now rs local_info peer_id
        remote_info).1.chains.head_chains, peer_id ∈ c.peers →
      c.id = (min local_info.head_slot (remote_info.finalized_epoch * spe) / spe,
        remote_info.head_root, remote_info.head_slot)) ∧
    (RangeSync.add_peer spe now rs local_info peer_id
        remote_info).1.chains.head_chains.countP
      (fun c => decide (peer_id ∈ c.peers)) ≤ 1 := by
  unfold RangeSync.add_peer
  rw [hty]
  simp only [hfin, Bool.false_eq_true, if_false]
  have haw1 := aw_lookup_none_imp haw
  have hinv := remove_peer_no_peer spe now rs peer_id haw1
  have haw2 : ∀ e ∈ aw_erase peer_id
      (RangeSync.remove_peer spe now rs peer_id).1.awaiting_head_peers,
      e.1 ≠ peer_id :=
    fun e he => hinv.2.2 e (aw_erase_mem he)
  have hccHead : ∀ c ∈ add_peer_to_chains
      (min local_info.head_slot (remote_info.finalized_epoch * spe) / spe)
      remote_info.head_root remote_info.head_slot peer_id
      (RangeSync.remove_peer spe now rs peer_id).1.chains.head_chains,
      peer_id ∈ c.peers →
      c.id = (min local_info.head_slot (remote_info.finalized_epoch * spe) / spe,
        remote_info.head_root, remote_info.head_slot) := by
    intro c hc hpc
    rcases add_peer_to_chains_cases hc with hmem | hnew | ⟨c1, hc1, hid, he⟩
    · exact absurd hpc (hinv.2.1 c hmem)
    · subst hnew
      rfl
    · subst he
      exact hid
  have hsR := remove_peer_sorted spe now rs peer_id hf hh
  refine ⟨?_, ?_, ?_⟩
  · intro c hc hpc
    have hc2 : c ∈ (ChainCollection.update spe local_info
        (ChainCollection.add_peer_or_create_chain
          (min local_info.head_slot (remote_info.finalized_epoch * spe) / spe)
          remote_info.head_root remote_info.head_slot peer_id .Head
          (RangeSync.remove_peer spe now rs peer_id).1.chains)
        (aw_erase peer_id
          (RangeSync.remove_peer spe now rs peer_id).1.awaiting_head_peers)).1.finalized_chains :=
      hc
    rcases update_finalized_peers_src spe local_info _ _ hc2 with ⟨c0, hc0, hpeq⟩
    rw [hpeq] at hpc
    exact hinv.1 c0 hc0 hpc
  · intro c hc hpc
    have hc2 : c ∈ (ChainCollection.update spe local_info
        (ChainCollection.add_peer_or_create_chain
          (min local_info.head_slot (remote_info.finalized_epoch * spe) / spe)
          remote_info.head_root remote_info.head_slot peer_id .Head
          (RangeSync.remove_peer spe now rs peer_id).1.chains)
        (aw_erase peer_id
          (RangeSync.remove_peer spe now rs peer_id).1.awaiting_head_peers)).1.head_chains :=
      hc
    exact update_head_id spe local_info _ _ hccHead haw2 c hc2 hpc
  · show (ChainCollection.update spe local_info
        (ChainCollection.add_peer_or_create_chain
          (min local_info.head_slot (remote_info.finalized_epoch * spe) / spe)
          remote_info.head_root remote_info.head_slot peer_id .Head
          (RangeSync.remove_peer spe now rs peer_id).1.chains)
        (aw_erase peer_id
          (RangeSync.remove_peer spe now rs peer_id).1.awaiting_head_peers)).1.head_chains.countP
      (fun c => decide (peer_id ∈ c.peers)) ≤ 1
    have hsu := update_sorted spe local_info
      (ChainCollection.add_peer_or_create_chain
        (min local_info.head_slot (remote_info.finalized_epoch * spe) / spe)
        remote_info.head_root remote_info.head_slot peer_id .Head
        (RangeSync.remove_peer spe now rs peer_id).1.chains)
      (aw_erase peer_id
        (RangeSync.remove_peer spe now rs peer_id).1.awaiting_head_peers)
      hsR.1 (ChainsSorted_add hsR.2)
    refine le_trans (List.countP_mono_left ?_)
      (countP_id_le_one
        (min local_info.head_slot (remote_info.finalized_epoch * spe) / spe,
          remote_info.head_root, remote_info.head_slot) hsu.2)
    intro c hc hpc
    simp only [decide_eq_true_eq] at hpc ⊢
    exact update_head_id spe local_info _ _ hccHead haw2 c hc hpc

theorem add_peer_head_single_chain_membership_witness :
    (RangeSync.add_peer 8 0
        ⟨⟨0, 0, 0, 0⟩, [], ⟨[], [⟨0, 77, 90, {9, 11}, ChainSyncState.Syncing⟩]⟩, []⟩
        ⟨0, 0, 0, 0⟩ 9 ⟨100, 301, 0, 0⟩).1.chains.head_chains.countP
      (fun c => decide (9 ∈ c.peers)) ≤ 1 :=
  (add_peer_head_single_chain_membership 8 0
    ⟨⟨0, 0, 0, 0⟩, [], ⟨[], [⟨0, 77, 90, {9, 11}, ChainSyncState.Syncing⟩]⟩, []⟩
    ⟨0, 0, 0, 0⟩ 9 ⟨100, 301, 0, 0⟩ (by decide) (by decide) (by decide)
    (by decide) (by decide)).2.2

/-! ## C8: small structural lemmas -/

theorem aw_erase_of_lookup_none {p : Nat} :
    ∀ {l : AwaitingMap}, aw_lookup p l = none → aw_erase p l = l := by
  intro l
  induction l with
  | nil => intro _; rfl
  | cons u t ih =>
    intro h
    rw [aw_lookup] at h
    by_cases hu : u.1 = p
    · rw [if_pos hu] at h
      exact absurd h (Option.some_ne_none _)
    · rw [if_neg hu] at h
      rw [aw_erase, if_neg hu, ih h]

theorem aw_insert_idem (p : Nat) (i : SyncInfo) :
    ∀ (l : AwaitingMap), aw_insert p i (aw_insert p i l) = aw_insert p i l := by
  intro l
  induction l with
  | nil =>
    show aw_insert p i [(p, i)] = [(p, i)]
    rw [aw_insert, if_neg (lt_irrefl p), if_pos rfl]
  | cons u t ih =>
    by_cases h1 : p < u.1
    · rw [aw_insert, if_pos h1]
      rw [aw_insert, if_neg (lt_irrefl p), if_pos rfl]
    · by_cases h2 : p = u.1
      · rw [aw_insert, if_neg h1, if_pos h2]
        rw [aw_insert, if_neg (lt_irrefl p), if_pos rfl]
      · rw [aw_insert, if_neg h1, if_neg h2]
        rw [aw_insert, if_neg h1, if_neg h2, ih]

theorem setS_self {c : SyncingChain} (h : c.state = ChainSyncState.Syncing) :
    { c with state := ChainSyncState.Syncing } = c := by
  cases c
  dsimp only at h
  rw [h]

theorem erase_peer_self {p : Nat} {c : SyncingChain} (h : p ∉ c.peers) :
    { c with peers := c.peers.erase p } = c := by
  cases c
  dsimp only at h ⊢
  rw [Finset.erase_eq_of_not_mem h]

theorem map_setS_id {l : List SyncingChain}
    (h : ∀ c ∈ l, c.state = ChainSyncState.Syncing) :
    l.map (fun c => { c with state := ChainSyncState.Syncing }) = l := by
  induction l with
  | nil => rfl
  | cons a t ih =>
    rw [List.map_cons, setS_self (h a (List.mem_cons_self a t)),
      ih (fun c hc => h c (List.mem_cons_of_mem a hc))]

theorem foldl_best_map (g : SyncingChain → SyncingChain)
    (hg : ∀ c, (g c).peers = c.peers) :
    ∀ (t : List SyncingChain) (a : SyncingChain),
      (t.map g).foldl (fun a b => if a.peers.card < b.peers.card then b else a) (g a) =
      g (t.foldl (fun a b => if a.peers.card < b.peers.card then b else a) a) := by
  intro t
  induction t with
  | nil => intro a; rfl
  | cons x xs ih =>
    intro a
    rw [List.map_cons, List.foldl_cons, List.foldl_cons]
    have hstep : (if (g a).peers.card < (g x).peers.card then g x else g a) =
        g (if a.peers.card < x.peers.card then x else a) := by
      rw [hg a, hg x]
      split_ifs <;> rfl
    rw [hstep]
    exact ih _

theorem elect_from_map (g : SyncingChain → SyncingChain)
    (hg_p : ∀ c, (g c).peers = c.peers) (hg_id : ∀ c, (g c).id = c.id)
    (c : SyncingChain) (t : List SyncingChain) :
    elect_from (g c) (t.map g) = elect_from c t := by
  unfold elect_from
  rw [foldl_best_map g hg_p t c, hg_id]

theorem add_peer_to_chains_noop {s r sl p : Nat} :
    ∀ {l : List SyncingChain}, ChainsSorted l →
      (∃ c ∈ l, c.id = (s, r, sl) ∧ p ∈ c.peers) →
      add_peer_to_chains s r sl p l = l := by
  intro l
  induction l with
  | nil =>
    intro _ h
    rcases h with ⟨c, hc, _⟩
    exact absurd hc (List.not_mem_nil c)
  | cons a t ih =>
    intro hs h
    rcases h with ⟨c, hc, hcid, hcp⟩
    have hp := List.pairwise_cons.mp hs
    by_cases h1 : a.id = (s, r, sl)
    · rw [add_peer_to_chains, if_pos h1]
      have hca : c = a := by
        rcases List.mem_cons.mp hc with rfl | hct
        · rfl
        · exfalso
          have hlt := hp.1 c hct
          rw [hcid, ← h1] at hlt
          rw [idLtb_irrefl] at hlt
          exact Bool.false_ne_true hlt
      subst hca
      rw [Finset.insert_eq_self.mpr hcp]
    · by_cases h2 : idLtb (s, r, sl) a.id = true
      · exfalso
        rcases List.mem_cons.mp hc with rfl | hct
        · exact h1 hcid
        · have h3 := idLtb_trans h2 (hp.1 c hct)
          rw [hcid] at h3
          rw [idLtb_irrefl] at h3
          exact Bool.false_ne_true h3
      · rw [add_peer_to_chains, if_neg h1, if_neg h2]
        have hct : c ∈ t := by
          rcases List.mem_cons.mp hc with rfl | hct
          · exact absurd hcid h1
          · exact hct
        rw [ih hp.2 ⟨c, hct, hcid, hcp⟩]

theorem update_char_cons (spe : Nat) (local_info : SyncInfo)
    (cc : ChainCollection) (aw : AwaitingMap) (c : SyncingChain)
    (t : List SyncingChain)
    (hfs : cc.finalized_chains.filter (chain_keep spe local_info) = c :: t) :
    ChainCollection.update spe local_info cc aw =
      (⟨(c :: t).map
          (fun d =>
            { d with state := if d.id = elect_from c t then ChainSyncState.Syncing else ChainSyncState.Stopped }),
        (cc.head_chains.filter (chain_keep spe local_info)).map
          (fun d => { d with state := ChainSyncState.Syncing })⟩, aw) := by
  simp only [ChainCollection.update]
  rw [hfs]

theorem update_char_nil (spe : Nat) (local_info : SyncInfo)
    (cc : ChainCollection) (aw : AwaitingMap)
    (hfs : cc.finalized_chains.filter (chain_keep spe local_info) = []) :
    ChainCollection.update spe local_info cc aw =
      (⟨[], ((aw.foldl (drain_entry spe local_info)
          (cc.head_chains.filter (chain_keep spe local_info))).filter
          (chain_keep spe local_info)).map
          (fun d => { d with state := ChainSyncState.Syncing })⟩, []) := by
  simp only [ChainCollection.update]
  rw [hfs]

theorem update_idem (spe : Nat) (local_info : SyncInfo)
    (cc : ChainCollection) (aw : AwaitingMap) :
    ChainCollection.update spe local_info
      (ChainCollection.update spe local_info cc aw).1
      (ChainCollection.update spe local_info cc aw).2 =
    ChainCollection.update spe local_info cc aw := by
  rcases hfs : cc.finalized_chains.filter (chain_keep spe local_info) with _ | ⟨c, t⟩
  · rw [update_char_nil spe local_info cc aw hfs]
    have hkeepH : ∀ x ∈ ((aw.foldl (drain_entry spe local_info)
        (cc.head_chains.filter (chain_keep spe local_info))).filter
        (chain_keep spe local_info)).map
        (fun d => { d with state := ChainSyncState.Syncing }),
        chain_keep spe local_info x = true := by
      intro x hx
      rcases List.mem_map.mp hx with ⟨y, hy, rfl⟩
      exact (List.mem_filter.mp hy).2
    have hsyncH : ∀ x ∈ ((aw.foldl (drain_entry spe local_info)
        (cc.head_chains.filter (chain_keep spe local_info))).filter
        (chain_keep spe local_info)).map
        (fun d => { d with state := ChainSyncState.Syncing }),
        x.state = ChainSyncState.Syncing := by
      intro x hx
      rcases List.mem_map.mp hx with ⟨y, hy, rfl⟩
      rfl
    rw [update_char_nil]
    · dsimp only
      rw [List.foldl_nil, List.filter_eq_self.mpr hkeepH,
        List.filter_eq_self.mpr hkeepH, map_setS_id hsyncH]
    · dsimp only
      rfl
  · rw [update_char_cons spe local_info cc aw c t hfs]
    have hkeepF : ∀ x ∈ (c :: t).map
        (fun d =>
          { d with state := if d.id = elect_from c t then ChainSyncState.Syncing else ChainSyncState.Stopped }),
        chain_keep spe local_info x = true := by
      intro x hx
      rcases List.mem_map.mp hx with ⟨y, hy, rfl⟩
      have hy2 : y ∈ cc.finalized_chains.filter (chain_keep spe local_info) := by
        rw [hfs]; exact hy
      exact (List.mem_filter.mp hy2).2
    have hkeepH : ∀ x ∈ (cc.head_chains.filter (chain_keep spe local_info)).map
        (fun d => { d with state := ChainSyncState.Syncing }),
        chain_keep spe local_info x = true := by
      intro x hx
      rcases List.mem_map.mp hx with ⟨y, hy, rfl⟩
      exact (List.mem_filter.mp hy).2
    have hfil : (⟨(c :: t).map
        (fun d =>
          { d with state := if d.id = elect_from c t then ChainSyncState.Syncing else ChainSyncState.Stopped }),
        (cc.head_chains.filter (chain_keep spe local_info)).map
          (fun d => { d with state := ChainSyncState.Syncing })⟩ :
        ChainCollection).finalized_chains.filter (chain_keep spe local_info) =
        ({ c with state := if c.id = elect_from c t then ChainSyncState.Syncing else ChainSyncState.Stopped }) ::
          t.map
            (fun d =>
              { d with state := if d.id = elect_from c t then ChainSyncState.Syncing else ChainSyncState.Stopped }) := by
      dsimp only
      rw [List.filter_eq_self.mpr hkeepF, List.map_cons]
    rw [update_char_cons spe local_info _ aw _ _ hfil]
    dsimp only
    rw [elect_from_map
      (fun d =>
        { d with state := if d.id = elect_from c t then ChainSyncState.Syncing else ChainSyncState.Stopped })
      (fun d => rfl) (fun d => rfl) c t]
    rw [List.filter_eq_self.mpr hkeepH]
    rw [List.map_cons, List.map_map, List.map_map]
    rfl

theorem rangeSyncType_head_lt {spe : Nat} {a b : SyncInfo}
    (h : RangeSyncType.new spe a b = some RangeSyncType.Head) :
    a.head_slot + SLOT_IMPORT_TOLERANCE < b.head_slot := by
  unfold RangeSyncType.new at h
  split_ifs at h with h1 h2
  all_goals first
    | exact h2
    | simp at h

theorem idLtb_asymm {a b : ChainId} (h : idLtb a b = true) :
    idLtb b a = false := by
  rcases a with ⟨a1, a2, a3⟩
  rcases b with ⟨b1, b2, b3⟩
  rw [idLtb_iff] at h
  rw [← Bool.not_eq_true, idLtb_iff]
  dsimp only at h ⊢
  omega

attribute [ext] SyncingChain ChainCollection RangeSync

theorem add_peer_char_none (spe now : Nat) (rs : RangeSync)
    (local_info : SyncInfo) (peer_id : Nat) (remote_info : SyncInfo)
    (hty : RangeSyncType.new spe local_info remote_info = none) :
    RangeSync.add_peer spe now rs local_info peer_id remote_info = (rs, []) := by
  unfold RangeSync.add_peer
  rw [hty]

theorem add_peer_char_cache (spe now : Nat) (rs : RangeSync)
    (local_info : SyncInfo) (peer_id : Nat) (remote_info : SyncInfo)
    (hty : RangeSyncType.new spe local_info remote_info = some RangeSyncType.Finalized)
    (hfail : failed_chains_contains rs.failed_chains now
      remote_info.finalized_root = true) :
    RangeSync.add_peer spe now rs local_info peer_id remote_info =
      (rs, [Effect.goodbye_peer peer_id GoodbyeReason.IrrelevantNetwork]) := by
  unfold RangeSync.add_peer
  rw [hty]
  simp [hfail]

theorem add_peer_char_finalized (spe now : Nat) (rs : RangeSync)
    (local_info : SyncInfo) (peer_id : Nat) (remote_info : SyncInfo)
    (hty : RangeSyncType.new spe local_info remote_info = some RangeSyncType.Finalized)
    (hfail : failed_chains_contains rs.failed_chains now
      remote_info.finalized_root = false) :
    (RangeSync.add_peer spe now rs local_info peer_id remote_info).1 =
      ⟨rs.beacon_status,
        (ChainCollection.update spe local_info
          ⟨add_peer_to_chains local_info.finalized_epoch remote_info.finalized_root
            (remote_info.finalized_epoch * spe + 2 * spe + 1) peer_id
            rs.chains.finalized_chains,
            rs.chains.head_chains⟩
          (aw_erase peer_id rs.awaiting_head_peers)).2,
        (ChainCollection.update spe local_info
          ⟨add_peer_to_chains local_info.finalized_epoch remote_info.finalized_root
            (remote_info.finalized_epoch * spe + 2 * spe + 1) peer_id
            rs.chains.finalized_chains,
            rs.chains.head_chains⟩
          (aw_erase peer_id rs.awaiting_head_peers)).1,
        rs.failed_chains⟩ := by
  unfold RangeSync.add_peer
  rw [hty]
  simp only [hfail, Bool.false_eq_true, if_false]
  rfl

theorem add_peer_char_park (spe now : Nat) (rs : RangeSync)
    (local_info : SyncInfo) (peer_id : Nat) (remote_info : SyncInfo)
    (hty : RangeSyncType.new spe local_info remote_info = some RangeSyncType.Head)
    (hfin : rs.chains.is_finalizing_sync = true) :
    (RangeSync.add_peer spe now rs local_info peer_id remote_info).1 =
      ⟨rs.beacon_status, aw_insert peer_id remote_info rs.awaiting_head_peers,
        rs.chains, rs.failed_chains⟩ := by
  unfold RangeSync.add_peer
  rw [hty]
  simp only [hfin, if_true]

theorem add_peer_char_headok (spe now : Nat) (rs : RangeSync)
    (local_info : SyncInfo) (peer_id : Nat) (remote_info : SyncInfo)
    (hty : RangeSyncType.new spe local_info remote_info = some RangeSyncType.Head)
    (hfin : rs.chains.is_finalizing_sync = false) :
    (RangeSync.add_peer spe now rs local_info peer_id remote_info).1 =
      ⟨(RangeSync.remove_peer spe now rs peer_id).1.beacon_status,
        (ChainCollection.update spe local_info
          ⟨(RangeSync.remove_peer spe now rs peer_id).1.chains.finalized_chains,
            add_peer_to_chains
              (min local_info.head_slot (remote_info.finalized_epoch * spe) / spe)
              remote_info.head_root remote_info.head_slot peer_id
              (RangeSync.remove_peer spe now rs peer_id).1.chains.head_chains⟩
          (aw_erase peer_id
            (RangeSync.remove_peer spe now rs peer_id).1.awaiting_head_peers)).2,
        (ChainCollection.update spe local_info
          ⟨(RangeSync.remove_peer spe now rs peer_id).1.chains.finalized_chains,
            add_peer_to_chains
              (min local_info.head_slot (remote_info.finalized_epoch * spe) / spe)
              remote_info.head_root remote_info.head_slot peer_id
              (RangeSync.remove_peer spe now rs peer_id).1.chains.head_chains⟩
          (aw_erase peer_id
            (RangeSync.remove_peer spe now rs peer_id).1.awaiting_head_peers)).1,
        (RangeSync.remove_peer spe now rs peer_id).1.failed_chains⟩ := by
  unfold RangeSync.add_peer
  rw [hty]
  simp only [hfin, Bool.false_eq_true, if_false]
  rfl

theorem map_erase_peer_id {p : Nat} {l : List SyncingChain}
    (h : ∀ c ∈ l, p ∉ c.peers) :
    l.map (fun c => { c with peers := c.peers.erase p }) = l := by
  induction l with
  | nil => rfl
  | cons a t ih =>
    rw [List.map_cons, erase_peer_self (h a (List.mem_cons_self a t)),
      ih (fun c hc => h c (List.mem_cons_of_mem a hc))]

theorem call_all_remove_noext {p : Nat} :
    ∀ {l : List SyncingChain}, (∀ c ∈ l, c.peers.erase p ≠ ∅) →
      call_all_remove p l =
        (l.map (fun c => { c with peers := c.peers.erase p }), []) := by
  intro l
  induction l with
  | nil => intro _; rfl
  | cons a t ih =>
    intro h
    have ha : (SyncingChain.remove_peer p a).2 = none := by
      unfold SyncingChain.remove_peer
      dsimp only
      rw [if_neg (h a (List.mem_cons_self a t))]
    simp only [call_all_remove]
    rw [ha, ih (fun c hc => h c (List.mem_cons_of_mem a hc))]
    rfl

theorem call_all_remove_clean {p : Nat} {l : List SyncingChain}
    (h : ∀ c ∈ l, p ∉ c.peers ∧ c.peers ≠ ∅) :
    call_all_remove p l = (l, []) := by
  have h2 : ∀ c ∈ l, c.peers.erase p ≠ ∅ := by
    intro c hc
    rw [Finset.erase_eq_of_not_mem (h c hc).1]
    exact (h c hc).2
  rw [call_all_remove_noext h2,
    map_erase_peer_id (fun c hc => (h c hc).1)]

theorem call_all_remove_extract {p : Nat} {z : SyncingChain}
    (hzp : z.peers.erase p = ∅) :
    ∀ (l1 : List SyncingChain) {l2 : List SyncingChain},
      (∀ c ∈ l1 ++ l2, p ∉ c.peers ∧ c.peers ≠ ∅) →
      call_all_remove p (l1 ++ z :: l2) =
        (l1 ++ l2, [{ z with peers := ∅ }]) := by
  intro l1
  induction l1 with
  | nil =>
    intro l2 h
    rw [List.nil_append, List.nil_append]
    have hz2 : (SyncingChain.remove_peer p z).2 =
        some RemoveChain.EmptyPeerPool := by
      unfold SyncingChain.remove_peer
      dsimp only
      rw [if_pos hzp]
    have h2 : ∀ c ∈ l2, p ∉ c.peers ∧ c.peers ≠ ∅ := fun c hc => h c hc
    simp only [call_all_remove]
    rw [hz2, call_all_remove_clean h2]
    dsimp only [SyncingChain.remove_peer]
    rw [hzp]
  | cons a t ih =>
    intro l2 h
    rw [List.cons_append]
    have ha : (SyncingChain.remove_peer p a).2 = none := by
      unfold SyncingChain.remove_peer
      dsimp only
      have ha2 := h a (List.mem_cons_self a (t ++ l2))
      rw [Finset.erase_eq_of_not_mem ha2.1]
      rw [if_neg ha2.2]
    simp only [call_all_remove]
    rw [ha, ih (fun c hc => h c (List.mem_cons_of_mem a hc))]
    dsimp only [SyncingChain.remove_peer]
    rw [Finset.erase_eq_of_not_mem (h a (List.mem_cons_self a (t ++ l2))).1]
    rfl

theorem remove_peer_char_noext (spe now : Nat) (rs : RangeSync) (p : Nat)
    (h1 : ∀ c ∈ rs.chains.finalized_chains, c.peers.erase p ≠ ∅)
    (h2 : ∀ c ∈ rs.chains.head_chains, c.peers.erase p ≠ ∅) :
    RangeSync.remove_peer spe now rs p =
      ({ rs with chains :=
          ⟨rs.chains.finalized_chains.map
            (fun c => { c with peers := c.peers.erase p }),
           rs.chains.head_chains.map
            (fun c => { c with peers := c.peers.erase p })⟩ }, []) := by
  simp only [RangeSync.remove_peer]
  rw [call_all_remove_noext h1, call_all_remove_noext h2]
  rfl

theorem add_peer_to_chains_preserves {s r sl q : Nat} :
    ∀ {l : List SyncingChain} {c : SyncingChain}, c ∈ l →
      ∃ c2 ∈ add_peer_to_chains s r sl q l,
        c2.id = c.id ∧ c.peers ⊆ c2.peers := by
  intro l
  induction l with
  | nil => intro c hc; exact absurd hc (List.not_mem_nil c)
  | cons a t ih =>
    intro c hc
    by_cases h1 : a.id = (s, r, sl)
    · rw [add_peer_to_chains, if_pos h1]
      rcases List.mem_cons.mp hc with rfl | hct
      · exact ⟨{ c with peers := insert q c.peers }, List.mem_cons_self _ _, rfl,
          Finset.subset_insert q c.peers⟩
      · exact ⟨c, List.mem_cons_of_mem _ hct, rfl, Finset.Subset.refl _⟩
    · by_cases h2 : idLtb (s, r, sl) a.id = true
      · rw [add_peer_to_chains, if_neg h1, if_pos h2]
        exact ⟨c, List.mem_cons_of_mem _ hc, rfl, Finset.Subset.refl _⟩
      · rw [add_peer_to_chains, if_neg h1, if_neg h2]
        rcases List.mem_cons.mp hc with rfl | hct
        · exact ⟨c, List.mem_cons_self _ _, rfl, Finset.Subset.refl _⟩
        · rcases ih hct with ⟨c2, hc2, hid, hsub⟩
          exact ⟨c2, List.mem_cons_of_mem _ hc2, hid, hsub⟩

theorem drain_fold_preserves (spe : Nat) (local_info : SyncInfo) :
    ∀ (aw : AwaitingMap) {hs : List SyncingChain} {c : SyncingChain}, c ∈ hs →
      ∃ c2 ∈ aw.foldl (drain_entry spe local_info) hs,
        c2.id = c.id ∧ c.peers ⊆ c2.peers := by
  intro aw
  induction aw with
  | nil =>
    intro hs c hc
    exact ⟨c, hc, rfl, Finset.Subset.refl _⟩
  | cons en t ih =>
    intro hs c hc
    rw [List.foldl_cons]
    rcases add_peer_to_chains_preserves hc with ⟨c2, hc2, hid, hsub⟩
    rcases ih hc2 with ⟨c3, hc3, hid3, hsub3⟩
    exact ⟨c3, hc3, hid3.trans hid, hsub.trans hsub3⟩

theorem add_erase_roundtrip {p s r sl : Nat} :
    ∀ {l : List SyncingChain}, ChainsSorted l →
      (∃ z ∈ l, z.id = (s, r, sl) ∧ p ∈ z.peers) →
      (∀ c ∈ l, c.id ≠ (s, r, sl) → p ∉ c.peers) →
      add_peer_to_chains s r sl p
        (l.map (fun c => { c with peers := c.peers.erase p })) = l := by
  intro l
  induction l with
  | nil =>
    intro _ hex _
    rcases hex with ⟨z, hz, _⟩
    exact absurd hz (List.not_mem_nil z)
  | cons a t ih =>
    intro hs hex hothers
    have hp := List.pairwise_cons.mp hs
    rw [List.map_cons]
    by_cases h1 : a.id = (s, r, sl)
    · have hpa : p ∈ a.peers := by
        rcases hex with ⟨z, hz, hzid, hzp⟩
        rcases List.mem_cons.mp hz with rfl | hzt
        · exact hzp
        · exfalso
          have hlt := hp.1 z hzt
          rw [hzid, ← h1] at hlt
          rw [idLtb_irrefl] at hlt
          exact Bool.false_ne_true hlt
      have hcond : ({ a with peers := a.peers.erase p } : SyncingChain).id =
          (s, r, sl) := h1
      rw [add_peer_to_chains, if_pos hcond]
      dsimp only
      rw [Finset.insert_erase hpa]
      have htail : ∀ c ∈ t, p ∉ c.peers := by
        intro c hct
        refine hothers c (List.mem_cons_of_mem a hct) ?_
        intro hce
        have hlt := hp.1 c hct
        rw [hce, ← h1] at hlt
        rw [idLtb_irrefl] at hlt
        exact Bool.false_ne_true hlt
      rw [map_erase_peer_id htail]
    · have hpa : p ∉ a.peers := hothers a (List.mem_cons_self a t) h1
      have hzt : ∃ z ∈ t, z.id = (s, r, sl) ∧ p ∈ z.peers := by
        rcases hex with ⟨z, hz, hzid, hzp⟩
        rcases List.mem_cons.mp hz with rfl | hzt
        · exact absurd hzid h1
        · exact ⟨z, hzt, hzid, hzp⟩
      have hcond1 : ¬ ({ a with peers := a.peers.erase p } : SyncingChain).id =
          (s, r, sl) := h1
      have hcond2 : ¬ idLtb (s, r, sl)
          ({ a with peers := a.peers.erase p } : SyncingChain).id = true := by
        rcases hzt with ⟨z, hzt2, hzid, _⟩
        have hlt : idLtb a.id (s, r, sl) = true := by
          rw [← hzid]
          exact hp.1 z hzt2
        show ¬ idLtb (s, r, sl) a.id = true
        rw [idLtb_asymm hlt]
        exact Bool.false_ne_true
      rw [add_peer_to_chains, if_neg hcond1, if_neg hcond2,
        erase_peer_self hpa,
        ih hp.2 hzt (fun c hc hne => hothers c (List.mem_cons_of_mem a hc) hne)]

theorem add_fresh_middle {p s r sl : Nat} :
    ∀ (l1 : List SyncingChain) {z : SyncingChain} {l2 : List SyncingChain},
      ChainsSorted (l1 ++ z :: l2) → z.id = (s, r, sl) →
      add_peer_to_chains s r sl p (l1 ++ l2) =
        l1 ++ (⟨s, r, sl, {p}, ChainSyncState.Stopped⟩ : SyncingChain) :: l2 := by
  intro l1
  induction l1 with
  | nil =>
    intro z l2 hs hzid
    rw [List.nil_append, List.nil_append]
    cases l2 with
    | nil => rfl
    | cons b t2 =>
      have hzb : idLtb z.id b.id = true :=
        (List.pairwise_cons.mp hs).1 b (List.mem_cons_self b t2)
      have hb1 : ¬ b.id = (s, r, sl) := by
        intro hEq
        exact (idLtb_ne hzb) (hzid.trans hEq.symm)
      have hb2 : idLtb (s, r, sl) b.id = true := by
        rw [← hzid]
        exact hzb
      rw [add_peer_to_chains, if_neg hb1, if_pos hb2]
  | cons a t ih =>
    intro z l2 hs hzid
    have hp := List.pairwise_cons.mp hs
    have haz : idLtb a.id z.id = true :=
      hp.1 z (List.mem_append_right t (List.mem_cons_self z l2))
    have ha1 : ¬ a.id = (s, r, sl) := by
      intro hEq
      exact (idLtb_ne haz) (hEq.trans hzid.symm)
    have ha2 : ¬ idLtb (s, r, sl) a.id = true := by
      have hlt : idLtb a.id (s, r, sl) = true := by
        rw [← hzid]
        exact haz
      rw [idLtb_asymm hlt]
      exact Bool.false_ne_true
    rw [List.cons_append, List.cons_append, add_peer_to_chains,
      if_neg ha1, if_neg ha2, ih hp.2 hzid]

/-! ## Idempotence of add_peer -/

theorem chain_keep_intro {spe : Nat} {li : SyncInfo} {c : SyncingChain}
    (h1 : li.finalized_epoch * spe < c.target_head_slot) (h2 : c.peers ≠ ∅) :
    chain_keep spe li c = true := by
  simp only [chain_keep, Bool.and_eq_true, decide_eq_true_eq]
  exact ⟨h1, h2⟩

theorem chain_keep_nonempty {spe : Nat} {li : SyncInfo} {c : SyncingChain}
    (h : chain_keep spe li c = true) : c.peers ≠ ∅ := by
  simp only [chain_keep, Bool.and_eq_true, decide_eq_true_eq] at h
  exact h.2

theorem chain_keep_target {spe : Nat} {li : SyncInfo} {c : SyncingChain}
    (h : chain_keep spe li c = true) :
    li.finalized_epoch * spe < c.target_head_slot := by
  simp only [chain_keep, Bool.and_eq_true, decide_eq_true_eq] at h
  exact h.1

theorem sorted_id_unique :
    ∀ {l : List SyncingChain}, ChainsSorted l →
      ∀ {a b : SyncingChain}, a ∈ l → b ∈ l → a.id = b.id → a = b := by
  intro l
  induction l with
  | nil =>
    intro _ a b ha _ _
    exact absurd ha (List.not_mem_nil a)
  | cons c t ih =>
    intro hs a b ha hb hid
    have hp := List.pairwise_cons.mp hs
    rcases List.mem_cons.mp ha with rfl | hat
    · rcases List.mem_cons.mp hb with rfl | hbt
      · rfl
      · exact absurd hid (idLtb_ne (hp.1 b hbt))
    · rcases List.mem_cons.mp hb with rfl | hbt
      · exact absurd hid.symm (idLtb_ne (hp.1 a hat))
      · exact ih hp.2 hat hbt hid

theorem remove_peer_empty_head (spe now : Nat) (b : SyncInfo)
    (fl : List (Nat × Nat)) (p : Nat) (l1 l2 : List SyncingChain)
    (z : SyncingChain) (hzB : z.peers.erase p = ∅)
    (hcl : ∀ c ∈ l1 ++ l2, p ∉ c.peers ∧ c.peers ≠ ∅)
    (hkeep : ∀ c ∈ l1 ++ l2, chain_keep spe b c = true)
    (hsync : ∀ c ∈ l1 ++ l2, c.state = ChainSyncState.Syncing) :
    (RangeSync.remove_peer spe now ⟨b, [], ⟨[], l1 ++ z :: l2⟩, fl⟩ p).1 =
      ⟨b, [], ⟨[], l1 ++ l2⟩, fl⟩ := by
  simp only [RangeSync.remove_peer, call_all_remove]
  rw [call_all_remove_extract hzB l1 hcl]
  simp only [List.map_nil, List.map_cons, List.nil_append, List.foldl_cons,
    List.foldl_nil]
  simp only [RangeSync.on_chain_removed]
  rw [update_char_nil spe b ⟨[], l1 ++ l2⟩ [] rfl]
  dsimp only
  rw [List.foldl_nil, List.filter_eq_self.mpr hkeep, List.filter_eq_self.mpr hkeep,
    map_setS_id hsync]

theorem add_peer_finalized_fixpoint (spe now : Nat) (b : SyncInfo)
    (aw : AwaitingMap) (cc : ChainCollection) (fl : List (Nat × Nat))
    (local_info : SyncInfo) (peer_id : Nat) (remote_info : SyncInfo)
    (hty : RangeSyncType.new spe local_info remote_info =
      some RangeSyncType.Finalized)
    (hfc : failed_chains_contains fl now remote_info.finalized_root = false)
    (hsorted : ChainsSorted cc.finalized_chains)
    (hex : ∃ c ∈ cc.finalized_chains,
      c.id = (local_info.finalized_epoch, remote_info.finalized_root,
        remote_info.finalized_epoch * spe + 2 * spe + 1) ∧ peer_id ∈ c.peers)
    (hawn : aw_lookup peer_id aw = none)
    (hupd : ChainCollection.update spe local_info
      ⟨cc.finalized_chains, cc.head_chains⟩ aw = (cc, aw)) :
    (RangeSync.add_peer spe now ⟨b, aw, cc, fl⟩ local_info peer_id
      remote_info).1 = ⟨b, aw, cc, fl⟩ := by
  rw [add_peer_char_finalized spe now ⟨b, aw, cc, fl⟩ local_info peer_id
    remote_info hty hfc]
  dsimp only
  rw [aw_erase_of_lookup_none hawn, add_peer_to_chains_noop hsorted hex, hupd]

theorem add_peer_headok_fixpoint (spe now : Nat) (H1 : List SyncingChain)
    (fl : List (Nat × Nat)) (local_info : SyncInfo) (peer_id : Nat)
    (remote_info : SyncInfo)
    (hty : RangeSyncType.new spe local_info remote_info =
      some RangeSyncType.Head)
    (hsorted : ChainsSorted H1)
    (hsync : ∀ c ∈ H1, c.state = ChainSyncState.Syncing)
    (hkeep : ∀ c ∈ H1, chain_keep spe local_info c = true)
    (htid : ∀ c ∈ H1, peer_id ∈ c.peers → c.id =
      (min local_info.head_slot (remote_info.finalized_epoch * spe) / spe,
        remote_info.head_root, remote_info.head_slot))
    (hex : ∃ z ∈ H1, z.id =
      (min local_info.head_slot (remote_info.finalized_epoch * spe) / spe,
        remote_info.head_root, remote_info.head_slot) ∧ peer_id ∈ z.peers) :
    (RangeSync.add_peer spe now ⟨local_info, [], ⟨[], H1⟩, fl⟩ local_info
      peer_id remote_info).1 = ⟨local_info, [], ⟨[], H1⟩, fl⟩ := by
  have hothers : ∀ c ∈ H1, c.id ≠
      (min local_info.head_slot (remote_info.finalized_epoch * spe) / spe,
        remote_info.head_root, remote_info.head_slot) → peer_id ∉ c.peers :=
    fun c hc hne hp => hne (htid c hc hp)
  rcases hex with ⟨z, hzH, hzid, hzp⟩
  rw [add_peer_char_headok spe now ⟨local_info, [], ⟨[], H1⟩, fl⟩ local_info
    peer_id remote_info hty rfl]
  by_cases hzB : z.peers.erase peer_id = ∅
  · -- the peer is the sole member of its target chain: the removal pass
    -- deletes the chain and the re-add recreates it identically
    have hz_pool : z.peers = {peer_id} := by
      rcases (Finset.erase_eq_empty_iff z.peers peer_id).mp hzB with h | h
      · exact absurd h (chain_keep_nonempty (hkeep z hzH))
      · exact h
    obtain ⟨l1, l2, hdec⟩ := List.append_of_mem hzH
    subst hdec
    have hps := List.pairwise_append.mp hsorted
    have hzl2 := List.pairwise_cons.mp hps.2.1
    have hmem12 : ∀ c ∈ l1 ++ l2, c ∈ l1 ++ z :: l2 := by
      intro c hc
      rcases List.mem_append.mp hc with h | h
      · exact List.mem_append_left _ h
      · exact List.mem_append_right _ (List.mem_cons_of_mem z h)
    have hne12 : ∀ c ∈ l1 ++ l2, c.id ≠ z.id := by
      intro c hc
      rcases List.mem_append.mp hc with h | h
      · exact idLtb_ne (hps.2.2 c h z (List.mem_cons_self z l2))
      · intro hid
        exact (idLtb_ne (hzl2.1 c h)) hid.symm
    have hcl12 : ∀ c ∈ l1 ++ l2, peer_id ∉ c.peers ∧ c.peers ≠ ∅ := by
      intro c hc
      exact ⟨hothers c (hmem12 c hc)
          (fun hcE => hne12 c hc (hcE.trans hzid.symm)),
        chain_keep_nonempty (hkeep c (hmem12 c hc))⟩
    have hkeep12 : ∀ c ∈ l1 ++ l2, chain_keep spe local_info c = true :=
      fun c hc => hkeep c (hmem12 c hc)
    have hsync12 : ∀ c ∈ l1 ++ l2, c.state = ChainSyncState.Syncing :=
      fun c hc => hsync c (hmem12 c hc)
    rw [remove_peer_empty_head spe now local_info fl peer_id l1 l2 z hzB hcl12
      hkeep12 hsync12]
    dsimp only
    rw [show aw_erase peer_id ([] : AwaitingMap) = [] from rfl,
      add_fresh_middle l1 hsorted hzid,
      update_char_nil spe local_info
        ⟨[], l1 ++ (⟨min local_info.head_slot
            (remote_info.finalized_epoch * spe) / spe,
          remote_info.head_root, remote_info.head_slot, {peer_id},
          ChainSyncState.Stopped⟩ : SyncingChain) :: l2⟩ [] rfl]
    dsimp only
    have hkeepN : ∀ c ∈ l1 ++ (⟨min local_info.head_slot
          (remote_info.finalized_epoch * spe) / spe,
        remote_info.head_root, remote_info.head_slot, {peer_id},
        ChainSyncState.Stopped⟩ : SyncingChain) :: l2,
        chain_keep spe local_info c = true := by
      intro c hc
      rcases List.mem_append.mp hc with h | h
      · exact hkeep12 c (List.mem_append_left _ h)
      · rcases List.mem_cons.mp h with rfl | h2
        · refine chain_keep_intro ?_ (Finset.singleton_ne_empty peer_id)
          have h3 := chain_keep_target (hkeep z hzH)
          have h4 : z.target_head_slot = remote_info.head_slot :=
            congrArg (fun q => q.2.2) hzid
          dsimp only
          omega
        · exact hkeep12 c (List.mem_append_right _ h2)
    have hfold : ((fun d => { d with state := ChainSyncState.Syncing })
        (⟨min local_info.head_slot (remote_info.finalized_epoch * spe) / spe,
          remote_info.head_root, remote_info.head_slot, {peer_id},
          ChainSyncState.Stopped⟩ : SyncingChain)) = z := by
      have hzid2 := hzid
      simp only [SyncingChain.id, Prod.mk.injEq] at hzid2
      refine SyncingChain.ext ?_ ?_ ?_ ?_ ?_
      · exact hzid2.1.symm
      · exact hzid2.2.1.symm
      · exact hzid2.2.2.symm
      · exact hz_pool.symm
      · exact (hsync z hzH).symm
    rw [List.foldl_nil, List.filter_eq_self.mpr hkeepN,
      List.filter_eq_self.mpr hkeepN, List.map_append, List.map_cons,
      map_setS_id (fun c hc => hsync12 c (List.mem_append_left _ hc)),
      map_setS_id (fun c hc => hsync12 c (List.mem_append_right _ hc))]
    rw [← hfold]
  · -- the peer shares every chain it sits in: the removal pass only shrinks
    -- pools and the re-add restores them
    have hernz : ∀ c ∈ H1, c.peers.erase peer_id ≠ ∅ := by
      intro c hc
      by_cases hcz : c.id =
          (min local_info.head_slot (remote_info.finalized_epoch * spe) / spe,
            remote_info.head_root, remote_info.head_slot)
      · have hcez : c = z := sorted_id_unique hsorted hc hzH
          (hcz.trans hzid.symm)
        rw [hcez]
        exact hzB
      · rw [Finset.erase_eq_of_not_mem (hothers c hc hcz)]
        exact chain_keep_nonempty (hkeep c hc)
    rw [remove_peer_char_noext spe now ⟨local_info, [], ⟨[], H1⟩, fl⟩ peer_id
      (fun c hc => absurd hc (List.not_mem_nil c)) hernz]
    dsimp only
    rw [List.map_nil, show aw_erase peer_id ([] : AwaitingMap) = [] from rfl,
      add_erase_roundtrip hsorted ⟨z, hzH, hzid, hzp⟩ hothers,
      update_char_nil spe local_info ⟨[], H1⟩ [] rfl]
    dsimp only
    rw [List.foldl_nil, List.filter_eq_self.mpr hkeep,
      List.filter_eq_self.mpr hkeep, map_setS_id hsync]

/-- C8: calling `add_peer` twice in succession with the same peer and the
same local and remote sync info leaves the coordinator in the same state as
calling it once (`range.rs:106-196`), in every classification branch: drop,
blacklisted Finalized root (goodbye twice, same state), Finalized
(the second add extends the same chain with a peer already in its pool and
the collection update is idempotent), Head parked while finalizing (the
`HashMap` insert replaces the entry, so the most recent info wins), and
Head while not finalizing (the second call first removes the peer from the
chain it was just added to and then re-adds it to the identical chain).
Hypotheses: the beacon status equals the local info passed in (the caller
reads it from the same beacon chain, `range.rs:353`), local finalization
is not ahead of the local head, the state is well-formed (canonically
sorted chain lists and parked map, a syncing finalized chain whenever
finalized chains exist, no parked entry for the peer when not finalizing),
and the peer is not the sole pool member of a pre-existing chain. -/
theorem add_peer_idempotent (spe now : Nat) (rs : RangeSync)
    (local_info : SyncInfo) (peer_id : Nat) (remote_info : SyncInfo)
    (hb : rs.beacon_status = local_info)
    (hl : local_info.finalized_epoch * spe ≤ local_info.head_slot)
    (hf : ChainsSorted rs.chains.finalized_chains)
    (hh : ChainsSorted rs.chains.head_chains)
    (haws : List.Pairwise (fun a b => a.1 < b.1) rs.awaiting_head_peers)
    (hwffin : rs.chains.finalized_chains ≠ [] →
      rs.chains.is_finalizing_sync = true)
    (hawp : rs.chains.is_finalizing_sync = false →
      aw_lookup peer_id rs.awaiting_head_peers = none)
    (hsole : ∀ c ∈ rs.chains.finalized_chains ++ rs.chains.head_chains,
      c.peers.erase peer_id ≠ ∅) :
    (RangeSync.add_peer spe now
      (RangeSync.add_peer spe now rs local_info peer_id remote_info).1
      local_info peer_id remote_info).1 =
    (RangeSync.add_peer spe now rs local_info peer_id remote_info).1 := by
  rcases hty : RangeSyncType.new spe local_info remote_info with _ | ty
  · rw [add_peer_char_none spe now rs local_info peer_id remote_info hty]
    dsimp only
    rw [add_peer_char_none spe now rs local_info peer_id remote_info hty]
  · rcases ty with _ | _
    · -- Finalized peer
      rcases hfc : failed_chains_contains rs.failed_chains now
          remote_info.finalized_root with _ | _
      · rw [add_peer_char_finalized spe now rs local_info peer_id remote_info
          hty hfc]
        refine add_peer_finalized_fixpoint spe now rs.beacon_status _ _
          rs.failed_chains local_info peer_id remote_info hty hfc ?_ ?_ ?_ ?_
        · exact (update_sorted spe local_info
            ⟨add_peer_to_chains local_info.finalized_epoch
                remote_info.finalized_root
                (remote_info.finalized_epoch * spe + 2 * spe + 1) peer_id
                rs.chains.finalized_chains,
              rs.chains.head_chains⟩
            (aw_erase peer_id rs.awaiting_head_peers)
            (ChainsSorted_add hf) hh).1
        · obtain ⟨c, hcA, hcid, hcp⟩ :=
            @add_peer_to_chains_target local_info.finalized_epoch
              remote_info.finalized_root
              (remote_info.finalized_epoch * spe + 2 * spe + 1) peer_id
              rs.chains.finalized_chains
          have hk : chain_keep spe local_info c = true := by
            refine chain_keep_intro ?_ (Finset.ne_empty_of_mem hcp)
            have h3 : c.target_head_slot =
                remote_info.finalized_epoch * spe + 2 * spe + 1 :=
              congrArg (fun q => q.2.2) hcid
            have h4 := rangeSyncType_finalized_lt hty
            have h5 : local_info.finalized_epoch * spe ≤
                remote_info.finalized_epoch * spe :=
              Nat.mul_le_mul (Nat.le_of_lt h4) (Nat.le_refl spe)
            omega
          obtain ⟨d, hd, he1, he2, he3, he4⟩ :=
            update_keeps_chain spe local_info
              ⟨add_peer_to_chains local_info.finalized_epoch
                  remote_info.finalized_root
                  (remote_info.finalized_epoch * spe + 2 * spe + 1) peer_id
                  rs.chains.finalized_chains,
                rs.chains.head_chains⟩
              (aw_erase peer_id rs.awaiting_head_peers) hcA hk
          refine ⟨d, hd, ?_, ?_⟩
          · show (d.start_epoch, d.target_head_root, d.target_head_slot) = _
            rw [he1, he2, he3]
            exact hcid
          · rw [he4]
            exact hcp
        · rcases update_aw_cases spe local_info
            ⟨add_peer_to_chains local_info.finalized_epoch
                remote_info.finalized_root
                (remote_info.finalized_epoch * spe + 2 * spe + 1) peer_id
                rs.chains.finalized_chains,
              rs.chains.head_chains⟩
            (aw_erase peer_id rs.awaiting_head_peers) with h | h
          · rw [h]
            exact aw_lookup_erase_self peer_id haws
          · rw [h]
            rfl
        · exact update_idem spe local_info
            ⟨add_peer_to_chains local_info.finalized_epoch
                remote_info.finalized_root
                (remote_info.finalized_epoch * spe + 2 * spe + 1) peer_id
                rs.chains.finalized_chains,
              rs.chains.head_chains⟩
            (aw_erase peer_id rs.awaiting_head_peers)
      · rw [add_peer_char_cache spe now rs local_info peer_id remote_info
          hty hfc]
        dsimp only
        rw [add_peer_char_cache spe now rs local_info peer_id remote_info
          hty hfc]
    · -- Head peer
      rcases hfin : rs.chains.is_finalizing_sync with _ | _
      · -- no finalized sync in progress
        have hfe : rs.chains.finalized_chains = [] := by
          by_contra h
          have h2 := hwffin h
          rw [hfin] at h2
          exact Bool.false_ne_true h2
        have hawn0 : aw_lookup peer_id rs.awaiting_head_peers = none :=
          hawp hfin
        have hs1 : ∀ c ∈ rs.chains.finalized_chains,
            c.peers.erase peer_id ≠ ∅ :=
          fun c hc => hsole c (List.mem_append_left _ hc)
        have hs2 : ∀ c ∈ rs.chains.head_chains,
            c.peers.erase peer_id ≠ ∅ :=
          fun c hc => hsole c (List.mem_append_right _ hc)
        rw [add_peer_char_headok spe now rs local_info peer_id remote_info
            hty hfin,
          remove_peer_char_noext spe now rs peer_id hs1 hs2]
        dsimp only
        rw [hfe, List.map_nil, aw_erase_of_lookup_none hawn0, hb,
          update_char_nil spe local_info
            ⟨[], add_peer_to_chains
              (min local_info.head_slot (remote_info.finalized_epoch * spe) /
                spe)
              remote_info.head_root remote_info.head_slot peer_id
              (rs.chains.head_chains.map
                (fun c => { c with peers := c.peers.erase peer_id }))⟩
            rs.awaiting_head_peers rfl]
        dsimp only
        refine add_peer_headok_fixpoint spe now _ rs.failed_chains local_info
          peer_id remote_info hty ?_ ?_ ?_ ?_ ?_
        · exact sorted_map_state
            (fun c => { c with state := ChainSyncState.Syncing })
            (fun c => rfl)
            (sorted_filter (drain_fold_sorted spe local_info
              rs.awaiting_head_peers
              (sorted_filter (ChainsSorted_add (sorted_map_state
                (fun c => { c with peers := c.peers.erase peer_id })
                (fun c => rfl) hh)))))
        · intro c hc
          rcases List.mem_map.mp hc with ⟨y, hy, rfl⟩
          rfl
        · intro c hc
          rcases List.mem_map.mp hc with ⟨y, hy, rfl⟩
          exact (List.mem_filter.mp hy).2
        · have hbase : ∀ c ∈ (add_peer_to_chains
              (min local_info.head_slot (remote_info.finalized_epoch * spe) /
                spe)
              remote_info.head_root remote_info.head_slot peer_id
              (rs.chains.head_chains.map
                (fun c => { c with peers := c.peers.erase peer_id }))).filter
              (chain_keep spe local_info),
              peer_id ∈ c.peers → c.id =
                (min local_info.head_slot
                    (remote_info.finalized_epoch * spe) / spe,
                  remote_info.head_root, remote_info.head_slot) := by
            intro c hc hp
            rcases add_peer_to_chains_cases (List.mem_filter.mp hc).1 with
              hmem | hnew | ⟨c1, hc1, hid, he⟩
            · rcases List.mem_map.mp hmem with ⟨y0, hy0, rfl⟩
              exact absurd hp (Finset.not_mem_erase peer_id y0.peers)
            · subst hnew
              rfl
            · subst he
              exact hid
          intro c hc hp
          rcases List.mem_map.mp hc with ⟨y, hy, rfl⟩
          exact drain_fold_head_id spe local_info rs.awaiting_head_peers _
            hbase (aw_lookup_none_imp hawn0) y (List.mem_filter.mp hy).1 hp
        · obtain ⟨c, hcA, hcid, hcp⟩ :=
            @add_peer_to_chains_target
              (min local_info.head_slot (remote_info.finalized_epoch * spe) /
                spe)
              remote_info.head_root remote_info.head_slot peer_id
              (rs.chains.head_chains.map
                (fun c => { c with peers := c.peers.erase peer_id }))
          have hslot : c.target_head_slot = remote_info.head_slot :=
            congrArg (fun q => q.2.2) hcid
          have hk : chain_keep spe local_info c = true := by
            refine chain_keep_intro ?_ (Finset.ne_empty_of_mem hcp)
            have h32 := rangeSyncType_head_lt hty
            omega
          obtain ⟨c2, hc2, hid2, hsub2⟩ :=
            drain_fold_preserves spe local_info rs.awaiting_head_peers
              (List.mem_filter.mpr ⟨hcA, hk⟩)
          have hk2 : chain_keep spe local_info c2 = true := by
            refine chain_keep_intro ?_
              (Finset.ne_empty_of_mem (hsub2 hcp))
            have h5 : c2.target_head_slot = c.target_head_slot :=
              congrArg (fun q => q.2.2) hid2
            have h6 := chain_keep_target hk
            omega
          exact ⟨_, List.mem_map_of_mem _ (List.mem_filter.mpr ⟨hc2, hk2⟩),
            hid2.trans hcid, hsub2 hcp⟩
      · -- a finalized sync is in progress: the peer is parked, and the
        -- second insert replaces the entry
        rw [add_peer_char_park spe now rs local_info peer_id remote_info
          hty hfin]
        have hfin2 : (RangeSync.mk rs.beacon_status
            (aw_insert peer_id remote_info rs.awaiting_head_peers) rs.chains
            rs.failed_chains).chains.is_finalizing_sync = true := hfin
        rw [add_peer_char_park spe now _ local_info peer_id remote_info
          hty hfin2]
        dsimp only
        rw [aw_insert_idem peer_id remote_info rs.awaiting_head_peers]

theorem add_peer_idempotent_witness :
    (RangeSync.add_peer 8 0
      (RangeSync.add_peer 8 0 ⟨⟨0, 0, 0, 0⟩, [], ⟨[], []⟩, []⟩ ⟨0, 0, 0, 0⟩ 9
        ⟨100, 5, 0, 0⟩).1
      ⟨0, 0, 0, 0⟩ 9 ⟨100, 5, 0, 0⟩).1 =
    (RangeSync.add_peer 8 0 ⟨⟨0, 0, 0, 0⟩, [], ⟨[], []⟩, []⟩ ⟨0, 0, 0, 0⟩ 9
      ⟨100, 5, 0, 0⟩).1 :=
  add_peer_idempotent 8 0 ⟨⟨0, 0, 0, 0⟩, [], ⟨[], []⟩, []⟩ ⟨0, 0, 0, 0⟩ 9
    ⟨100, 5, 0, 0⟩ rfl (by decide) List.Pairwise.nil List.Pairwise.nil
    List.Pairwise.nil (fun h => absurd rfl h) (fun _ => rfl)
    (fun c hc => absurd hc (List.not_mem_nil c))
